import Mathlib

/-!
Verification of the VCM (View Comments Mirror) comment anchoring and
reconciliation engine.

The development shallowly embeds the two implementations shipped in the
repository:

* namespace `VCM.V1` — the content-hash implementation of `src/vcm.js`
  (`extractComments`, `injectComments`, `stripComments`, `findBestMatch`,
  `findCommentStart`, `hashLine`);
* namespace `VCM.V2` — the final implementation with the private /
  always-show partition (`extractComments` with blank-line bookkeeping,
  `stripComments` with `vcmComments` and `keepPrivate`, `detectInitialMode`,
  the clean-mode branch of `saveVCM`, the clean-to-commented merge of
  `toggleCurrentFileComments`, and `saveCommentsToVCM`).

Texts are modelled as `List Char`; a line is a `List Char` containing no
newline.  JavaScript's `split("\n")` / `join("\n")` pair is modelled by
`splitNl` / `joinNl`.  The 8-hex-character truncated MD5 digest of the
trimmed line content (`hashLine`) is modelled by the trimmed content
itself: an executable stand-in that is a pure function of the trimmed
line, exactly as the digest is, and injective on trimmed content (the
code relies on the digest behaving injectively on the lines that occur
in one file).  JavaScript whitespace tests (`\s`, `trim`) are modelled on
the ASCII whitespace characters that can occur inside a line.
-/

namespace VCM

/-- A line of text: characters without a newline. -/
abbrev Line := List Char

/-- ASCII whitespace, modelling the JavaScript `\s` class and `trim`. -/
def isWs (c : Char) : Bool :=
  c = ' ' || c = '\t' || c = '\n' || c = '\r' || c = Char.ofNat 11 || c = Char.ofNat 12

/-- Drop leading whitespace (JavaScript `trimStart`). -/
def trimStart (l : Line) : Line := l.dropWhile isWs

/-- Drop trailing whitespace (JavaScript `trimEnd`). -/
def trimEnd (l : Line) : Line := (l.reverse.dropWhile isWs).reverse

/-- JavaScript `trim`. -/
def trim (l : Line) : Line := trimEnd (trimStart l)

/-- JavaScript `text.split("\n")`. -/
def splitNl : List Char → List Line
  | [] => [[]]
  | c :: rest =>
    if c = '\n' then [] :: splitNl rest
    else
      match splitNl rest with
      | [] => [[c]]
      | l :: ls => (c :: l) :: ls

/-- JavaScript `lines.join("\n")`. -/
def joinNl (ls : List Line) : List Char := List.intercalate ['\n'] ls

/-- `hashLine` of `src/vcm.js`: a digest of the trimmed line content only
(no line-number salt); the `lineIndex` parameter of the source is unused.
The truncated-MD5 digest is modelled by the trimmed content itself. -/
def hashLine (line : Line) : Line := trim line

/-- A comment-marker table entry (e.g. `['#']` or `['/','/']`). -/
abbrev Marker := List Char

/-- The Python marker set of `COMMENT_MARKERS`. -/
def pyMarkers : List Marker := [['#']]

/-- The C-family marker set of `COMMENT_MARKERS`. -/
def slashMarkers : List Marker := [['/', '/']]

/-- The fallback marker set for unrecognized file types. -/
def defaultMarkers : List Marker := [['#'], ['/', '/'], ['-', '-'], ['%'], [';']]

/-- The `isComment` helper / `lineStartPattern` test: the trimmed line
starts with one of the file type's markers. -/
def isCommentLine (markers : List Marker) (l : Line) : Bool :=
  markers.any (fun m => m.isPrefixOf (trim l))

/-- Association-list lookup, modelling `Map.get`. -/
def mapLookup {K V : Type} [DecidableEq K] : List (K × V) → K → Option V
  | [], _ => none
  | (k', v) :: rest, k => if k' = k then some v else mapLookup rest k

/-- Append a value to the bucket of key `k`, creating the bucket if
missing: models `if (!m.has(k)) m.set(k, []); m.get(k).push(v)`. -/
def bucketAdd {K V : Type} [DecidableEq K] : List (K × List V) → K → V → List (K × List V)
  | [], k, v => [(k, [v])]
  | (k', vs) :: rest, k, v =>
    if k' = k then (k', vs ++ [v]) :: rest else (k', vs) :: bucketAdd rest k v

/-- One line of a buffered comment block: the raw line text and its
0-based original line index. -/
structure BlockLine where
  text : Line
  originalLine : Nat
deriving DecidableEq

/-- The `type` tag of a comment record: `"block"` or `"inline"`. -/
inductive CKind
  | block
  | inline
deriving DecidableEq

/-- The value stored in `text_cleanMode`: a string for inline records, a
block-line array for block records. -/
inductive CleanMode
  | str (s : Line)
  | blk (l : List BlockLine)
deriving DecidableEq

/-- A persisted comment record.  Optional JavaScript object fields are
`Option`s (absent / `undefined` / `null` collapse to `none`); the boolean
flags default to `false`, matching JavaScript truthiness of an absent
field. -/
structure Comment where
  ctype : CKind
  anchor : Line
  prevHash : Option Line := none
  nextHash : Option Line := none
  originalLine : Option Nat := none
  text : Option Line := none
  block : Option (List BlockLine) := none
  text_cleanMode : Option CleanMode := none
  alwaysShow : Bool := false
  isPrivate : Bool := false
  leadingBlankLines : Option Nat := none
  trailingBlankLines : Option Nat := none
deriving DecidableEq

/-- Truthiness of a `text_cleanMode` value: `null`/absent and the empty
string are falsy; any array (even empty) is truthy. -/
def cmTruthy : Option CleanMode → Bool
  | none => false
  | some (CleanMode.str s) => !s.isEmpty
  | some (CleanMode.blk _) => true

/-- The string content of a `text_cleanMode` value when it is a string. -/
def cmStr : Option CleanMode → Line
  | some (CleanMode.str s) => s
  | _ => []

/-- The block content of a `text_cleanMode` value when it is an array. -/
def cmBlk : Option CleanMode → List BlockLine
  | some (CleanMode.blk l) => l
  | _ => []

/-- Scan from index `start` (inclusive) for the first non-blank,
non-comment line; shared by `findNextCodeLine` and the top-of-file
anchor search of `extractComments`. -/
def findCodeFrom (markers : List Marker) (lines : List Line) (start : Nat) : Option Nat :=
  match (lines.drop start).findIdx? (fun l => !(trim l).isEmpty && !isCommentLine markers l) with
  | some k => some (start + k)
  | none => none

/-- `findNextCodeLine` of `extractComments`: first non-blank non-comment
line strictly after index `i`. -/
def findNextCodeLine (markers : List Marker) (lines : List Line) (i : Nat) : Option Nat :=
  findCodeFrom markers lines (i + 1)

/-- `findPrevCodeLine` of `extractComments`: first non-blank non-comment
line strictly before index `i`, scanning downward. -/
def findPrevCodeLine (markers : List Marker) (lines : List Line) (i : Nat) : Option Nat :=
  match (lines.take i).reverse.findIdx? (fun l => !(trim l).isEmpty && !isCommentLine markers l) with
  | some k => some (i - 1 - k)
  | none => none

/-- Does some marker start at the head of `cs`
(the regex alternation `(m1|m2|...)`)? -/
def markerPrefix (markers : List Marker) (cs : List Char) : Bool :=
  markers.any (fun m => m.isPrefixOf cs)

/-- Matching of the inline-comment regex `(\s+)(marker)` at the head of
`cs`: at least one whitespace character followed (after any further
whitespace) immediately by a marker. -/
def wsRunMarker (markers : List Marker) : List Char → Bool
  | [] => false
  | c :: rest => isWs c && (markerPrefix markers rest || wsRunMarker markers rest)

/-- Leftmost start index of a `(\s+)(marker)` regex match, scanning
candidate start positions left to right; models `line.match(inlineRegex)`
and its `match.index` in `extractComments`. -/
def inlineIdxGo (markers : List Marker) : Nat → List Char → Option Nat
  | _, [] => none
  | s, c :: rest =>
    if wsRunMarker markers (c :: rest) then some s
    else inlineIdxGo markers (s + 1) rest

/-- The `match.index` of the inline-comment regex of `extractComments`
(`none` when the regex does not match).  Note the regex is not
string-literal aware. -/
def extractInlineIdx (markers : List Marker) (line : Line) : Option Nat :=
  inlineIdxGo markers 0 line

/-- JavaScript `haystack.includes(needle)`: contiguous substring test. -/
def jsIncludes (hay needle : Line) : Bool :=
  if needle.isPrefixOf hay then true
  else
    match hay with
    | [] => false
    | _ :: t => jsIncludes t needle

/-- Does a marker fire at the current scan position of
`findCommentStart`?  `prev` is the preceding character: a two-character
marker needs both characters to match and the preceding character to be
whitespace; a one-character marker needs the character to equal the
marker and the preceding character to be whitespace (`i > 0 &&
line[i-1].match(/\s/)`). -/
def markerHitAt (markers : List Marker) (prev : Option Char) (c : Char) (rest : List Char) : Bool :=
  markers.any (fun m =>
    match m with
    | [m0, m1] =>
      c = m0 && rest.head? = some m1 &&
        (match prev with
         | some pc => isWs pc
         | none => false)
    | [m0] =>
      c = m0 &&
        (match prev with
         | some pc => isWs pc
         | none => false)
    | _ => false)

/-- The string-literal scanner state of `findCommentStart`:
`stringChar = some q` when inside a string opened by quote `q`, and the
pending escape flag. -/
structure ScanState where
  stringChar : Option Char
  escaped : Bool
deriving DecidableEq

/-- The initial scanner state. -/
def initScan : ScanState := { stringChar := none, escaped := false }

/-- Is `c` one of the three string-opening quotes of
`findCommentStart`? -/
def isQuote (c : Char) : Bool :=
  c = '"' || c = '\'' || c = Char.ofNat 96

/-- The state transition of one scanned character of
`findCommentStart` (escape handling, then backslash, then string
open/close). -/
def scanStep (st : ScanState) (c : Char) : ScanState :=
  if st.escaped then { st with escaped := false }
  else if c = '\\' then { st with escaped := true }
  else
    match st.stringChar with
    | none => if isQuote c then { stringChar := some c, escaped := false } else st
    | some q => if c = q then { stringChar := none, escaped := false } else st

/-- The scan loop of `findCommentStart`: at each position, the escape /
backslash / quote branches `continue`; otherwise, outside a string, a
marker hit returns `i - 1` (the preceding whitespace position). -/
def findCommentStartGo (markers : List Marker) :
    ScanState → Option Char → Nat → List Char → Option Nat
  | _, _, _, [] => none
  | st, prev, i, c :: rest =>
    if st.escaped then
      findCommentStartGo markers { st with escaped := false } (some c) (i + 1) rest
    else if c = '\\' then
      findCommentStartGo markers { st with escaped := true } (some c) (i + 1) rest
    else
      match st.stringChar with
      | none =>
        if isQuote c then
          findCommentStartGo markers { stringChar := some c, escaped := false } (some c) (i + 1) rest
        else if markerHitAt markers prev c rest then some (i - 1)
        else findCommentStartGo markers st (some c) (i + 1) rest
      | some q =>
        if c = q then
          findCommentStartGo markers { stringChar := none, escaped := false } (some c) (i + 1) rest
        else findCommentStartGo markers st (some c) (i + 1) rest

/-- `findCommentStart` of `stripComments` (identical in both
implementations): the position of the whitespace character preceding the
first out-of-string whitespace-preceded marker, or `none`. -/
def findCommentStart (markers : List Marker) (line : Line) : Option Nat :=
  findCommentStartGo markers initScan none 0 line

end VCM

namespace VCM.V1

open VCM

/-- The main loop of `extractComments` (`src/vcm.js`): walks the
remaining lines (absolute index `i` into the full `lines` array),
buffering consecutive standalone comment lines, emitting an inline
record for a code line with an inline-regex match and a block record
when the buffer is non-empty; returns the records in emission order plus
the buffer left at end of file. -/
def extractLoop (markers : List Marker) (lines : List Line) :
    Nat → List Line → List BlockLine → List Comment × List BlockLine
  | _, [], buffer => ([], buffer)
  | i, line :: rest, buffer =>
    if (trim line).isEmpty then
      extractLoop markers lines (i + 1) rest buffer
    else if isCommentLine markers line then
      extractLoop markers lines (i + 1) rest (buffer ++ [⟨line, i⟩])
    else
      let prevIdx := findPrevCodeLine markers lines i
      let nextIdx := findNextCodeLine markers lines i
      let inl : List Comment :=
        match extractInlineIdx markers line with
        | some s =>
          [{ ctype := CKind.inline,
             anchor := hashLine (trimEnd (line.take s)),
             prevHash := prevIdx.map (fun j => hashLine (lines.getD j [])),
             nextHash := nextIdx.map (fun j => hashLine (lines.getD j [])),
             originalLine := some i,
             text := some (line.drop s) }]
        | none => []
      let blk : List Comment :=
        if buffer.isEmpty then []
        else
          [{ ctype := CKind.block,
             anchor := hashLine line,
             prevHash := prevIdx.map (fun j => hashLine (lines.getD j [])),
             nextHash := nextIdx.map (fun j => hashLine (lines.getD j [])),
             block := some buffer }]
      let restResult := extractLoop markers lines (i + 1) rest []
      (inl ++ blk ++ restResult.1, restResult.2)

/-- `extractComments` of `src/vcm.js`: the main loop plus the
top-of-file case for a buffer that survives to end of file (header
comments with no code below), which is anchored to the first code line
of the file and placed at the front of the record list. -/
def extractComments (markers : List Marker) (text : List Char) : List Comment :=
  let lines := splitNl text
  let r := extractLoop markers lines 0 lines []
  if r.2.isEmpty then r.1
  else
    let firstCodeIndex := lines.findIdx? (fun l => !(trim l).isEmpty && !isCommentLine markers l)
    let anchorLine := firstCodeIndex.getD 0
    let nextIdx := findCodeFrom markers lines anchorLine
    { ctype := CKind.block,
      anchor := hashLine (lines.getD anchorLine []),
      prevHash := none,
      nextHash := nextIdx.map (fun j => hashLine (lines.getD j [])),
      block := some r.2 } :: r.1

/-- The per-line map step of `stripComments`: truncate at the inline
comment boundary and `trimEnd`, or keep the line unchanged. -/
def stripLine (markers : List Marker) (line : Line) : Line :=
  match findCommentStart markers line with
  | some p => trimEnd (line.take p)
  | none => line

/-- `stripComments` of `src/vcm.js`: drop pure comment lines (keeping
blank lines), then cut inline comments on the surviving lines. -/
def stripComments (markers : List Marker) (text : List Char) : List Char :=
  joinNl
    (((splitNl text).filter
        (fun line => (trim line).isEmpty || !isCommentLine markers line)).map
      (stripLine markers))

/-- The hash-to-indices map of `injectComments`: for each non-blank line,
append its index to the bucket of its content hash. -/
def buildHashIndices : Nat → List Line → List (Line × List Nat) → List (Line × List Nat)
  | _, [], m => m
  | i, l :: rest, m =>
    buildHashIndices (i + 1) rest
      (if (trim l).isEmpty then m else bucketAdd m (hashLine l) i)

/-- First non-blank line strictly before `idx` in the clean text
(context search of `findBestMatch`). -/
def prevNonBlankIdx (lines : List Line) (idx : Nat) : Option Nat :=
  match (lines.take idx).reverse.findIdx? (fun l => !(trim l).isEmpty) with
  | some k => some (idx - 1 - k)
  | none => none

/-- First non-blank line strictly after `idx` in the clean text. -/
def nextNonBlankIdx (lines : List Line) (idx : Nat) : Option Nat :=
  match (lines.drop (idx + 1)).findIdx? (fun l => !(trim l).isEmpty) with
  | some k => some (idx + 1 + k)
  | none => none

/-- The context score of `findBestMatch`: 10 points when the record's
stored previous-context hash is truthy and equals the hash of the
previous non-blank line, 10 more for the next-context hash. -/
def contextScore (lines : List Line) (c : Comment) (idx : Nat) : Nat :=
  (match c.prevHash, prevNonBlankIdx lines idx with
   | some h, some j => if !h.isEmpty && hashLine (lines.getD j []) = h then 10 else 0
   | _, _ => 0) +
  (match c.nextHash, nextNonBlankIdx lines idx with
   | some h, some j => if !h.isEmpty && hashLine (lines.getD j []) = h then 10 else 0
   | _, _ => 0)

/-- The sort order of the candidate scores in `findBestMatch`:
score descending, then index ascending (the JavaScript comparator
`b.score - a.score` with tie-break `a.idx - b.idx`); pairs are
`(idx, score)`. -/
def scoreLE (a b : Nat × Nat) : Prop :=
  b.2 < a.2 ∨ (b.2 = a.2 ∧ a.1 ≤ b.1)

instance : DecidableRel scoreLE := fun a b => by
  unfold scoreLE; infer_instance

instance : IsTotal (Nat × Nat) scoreLE where
  total a b := by
    unfold scoreLE
    rcases Nat.lt_trichotomy a.2 b.2 with h | h | h
    · exact Or.inr (Or.inl h)
    · rcases Nat.le_total a.1 b.1 with h1 | h1
      · exact Or.inl (Or.inr ⟨h.symm, h1⟩)
      · exact Or.inr (Or.inr ⟨h, h1⟩)
    · exact Or.inl (Or.inl h)

instance : IsTrans (Nat × Nat) scoreLE where
  trans a b c hab hbc := by
    unfold scoreLE at *
    rcases hab with h1 | ⟨e1, l1⟩
    · rcases hbc with h2 | ⟨e2, l2⟩
      · exact Or.inl (Nat.lt_trans h2 h1)
      · exact Or.inl (e2 ▸ h1)
    · rcases hbc with h2 | ⟨e2, l2⟩
      · exact Or.inl (e1 ▸ h2)
      · exact Or.inr ⟨e2.trans e1, Nat.le_trans l1 l2⟩

/-- `findBestMatch` of `injectComments` (`src/vcm.js`): a single
candidate is returned immediately; otherwise already-used indices are
filtered out (falling back to the first candidate when all are used);
with two or more available candidates each is scored by context and the
highest-scoring, lowest-index candidate wins. -/
def findBestMatch (lines : List Line) (c : Comment) (cands : List Nat) (used : List Nat) : Nat :=
  if cands.length = 1 then cands.headD 0
  else
    let available := cands.filter (fun i => !used.contains i)
    if available.isEmpty then cands.headD 0
    else if available.length = 1 then available.headD 0
    else
      let scores := available.map (fun idx => (idx, contextScore lines c idx))
      ((List.insertionSort scoreLE scores).headD (0, 0)).1

/-- The block sort key: `a.block[0]?.originalLine || 0`. -/
def blockKey (c : Comment) : Nat :=
  match c.block with
  | some (b :: _) => b.originalLine
  | _ => 0

/-- The inline sort key: `a.originalLine` (absent modelled as 0). -/
def inlineKey (c : Comment) : Nat := c.originalLine.getD 0

/-- The stable sort of block records by original line. -/
def sortBlocks (bs : List Comment) : List Comment :=
  List.insertionSort (fun a b => blockKey a ≤ blockKey b) bs

/-- The stable sort of inline records by original line. -/
def sortInlines (bs : List Comment) : List Comment :=
  List.insertionSort (fun a b => inlineKey a ≤ inlineKey b) bs

/-- The block placement loop of `injectComments`: for each block record
whose anchor has a non-empty candidate bucket, resolve the target index
with `findBestMatch`, mark it used, and append the record to the target's
bucket in the line-index-to-records map. -/
def buildBlockMaps (lines : List Line) (hmap : List (Line × List Nat)) :
    List Comment → List (Nat × List Comment) → List Nat →
    List (Nat × List Comment) × List Nat
  | [], bmap, used => (bmap, used)
  | b :: bs, bmap, used =>
    match mapLookup hmap b.anchor with
    | some indices =>
      if indices.isEmpty then buildBlockMaps lines hmap bs bmap used
      else
        let t := findBestMatch lines b indices used
        buildBlockMaps lines hmap bs (bucketAdd bmap t b) (t :: used)
    | none => buildBlockMaps lines hmap bs bmap used

/-- The inline placement loop of `injectComments`: like the block loop
but the target index is not marked used. -/
def buildInlineMap (lines : List Line) (hmap : List (Line × List Nat)) (used : List Nat) :
    List Comment → List (Nat × List Comment) → List (Nat × List Comment)
  | [], imap => imap
  | b :: bs, imap =>
    match mapLookup hmap b.anchor with
    | some indices =>
      if indices.isEmpty then buildInlineMap lines hmap used bs imap
      else
        let t := findBestMatch lines b indices used
        buildInlineMap lines hmap used bs (bucketAdd imap t b)
    | none => buildInlineMap lines hmap used bs imap

/-- The lines a block record contributes above its anchor: the
`text_cleanMode` block array (when it is an array) followed by the
persisted block lines, each emitted verbatim. -/
def blockRenderLines (c : Comment) : List Line :=
  (cmBlk c.text_cleanMode ++ c.block.getD []).map BlockLine.text

/-- The inline suffix appended to a code line: the `text_cleanMode`
string (when it is a string) followed by the persisted text. -/
def inlineSuffix (c : Comment) : Line :=
  cmStr c.text_cleanMode ++ c.text.getD []

/-- The rebuild loop of `injectComments`: for each clean line, emit the
block records resolved to it, then the line itself with the suffix of the
first inline record resolved to it (if any). -/
def rebuildLoop (bmap imap : List (Nat × List Comment)) :
    Nat → List Line → List Line
  | _, [] => []
  | i, l :: rest =>
    let blockLines := ((mapLookup bmap i).getD []).flatMap blockRenderLines
    let line :=
      match mapLookup imap i with
      | some (inl :: _) => l ++ inlineSuffix inl
      | _ => l
    blockLines ++ (line :: rebuildLoop bmap imap (i + 1) rest)

/-- `injectComments` of `src/vcm.js`. -/
def injectComments (cleanText : List Char) (comments : List Comment) : List Char :=
  let lines := splitNl cleanText
  let hmap := buildHashIndices 0 lines []
  let blockComments := sortBlocks (comments.filter (fun c => c.ctype = CKind.block))
  let inlineComments := sortInlines (comments.filter (fun c => c.ctype = CKind.inline))
  let bm := buildBlockMaps lines hmap blockComments [] []
  let imap := buildInlineMap lines hmap bm.2 inlineComments []
  joinNl (rebuildLoop bm.1 imap 0 lines)

end VCM.V1

namespace VCM.V2

open VCM

/-- The blank-line look-ahead of `extractComments` (final version,
CASE 1.5): the index of the next non-blank line strictly after `i`. -/
def nextNonBlankAfter (lines : List Line) (i : Nat) : Option Nat :=
  match (lines.drop (i + 1)).findIdx? (fun l => !(trim l).isEmpty) with
  | some k => some (i + 1 + k)
  | none => none

/-- Blank lines immediately above line index `first` (the
`leadingBlankLines` count of CASE 3). -/
def countLeadingBlanks (lines : List Line) (first : Nat) : Nat :=
  ((lines.take first).reverse.takeWhile (fun l => (trim l).isEmpty)).length

/-- The main loop of the final `extractComments`: like the `src/vcm.js`
loop but a blank line is buffered as interior block spacing when the
buffer is non-empty and the next non-blank line is again a comment, and
block records carry `leadingBlankLines` / `trailingBlankLines` counts
(stored only when positive). -/
def extractLoop (markers : List Marker) (lines : List Line) :
    Nat → List Line → List BlockLine → List Comment × List BlockLine
  | _, [], buffer => ([], buffer)
  | i, line :: rest, buffer =>
    if isCommentLine markers line then
      extractLoop markers lines (i + 1) rest (buffer ++ [⟨line, i⟩])
    else if (trim line).isEmpty then
      if !buffer.isEmpty then
        match nextNonBlankAfter lines i with
        | some j =>
          if isCommentLine markers (lines.getD j []) then
            extractLoop markers lines (i + 1) rest (buffer ++ [⟨line, i⟩])
          else extractLoop markers lines (i + 1) rest buffer
        | none => extractLoop markers lines (i + 1) rest buffer
      else extractLoop markers lines (i + 1) rest buffer
    else
      let prevIdx := findPrevCodeLine markers lines i
      let nextIdx := findNextCodeLine markers lines i
      let inl : List Comment :=
        match extractInlineIdx markers line with
        | some s =>
          [{ ctype := CKind.inline,
             anchor := hashLine (trimEnd (line.take s)),
             prevHash := prevIdx.map (fun j => hashLine (lines.getD j [])),
             nextHash := nextIdx.map (fun j => hashLine (lines.getD j [])),
             originalLine := some i,
             text := some (line.drop s) }]
        | none => []
      let blk : List Comment :=
        if buffer.isEmpty then []
        else
          let firstLine := (buffer.headD ⟨[], 0⟩).originalLine
          let lastLine := (buffer.getLastD ⟨[], 0⟩).originalLine
          let leading := countLeadingBlanks lines firstLine
          let trailing := i - lastLine - 1
          [{ ctype := CKind.block,
             anchor := hashLine line,
             prevHash := prevIdx.map (fun j => hashLine (lines.getD j [])),
             nextHash := nextIdx.map (fun j => hashLine (lines.getD j [])),
             block := some buffer,
             leadingBlankLines := if leading > 0 then some leading else none,
             trailingBlankLines := if trailing > 0 then some trailing else none }]
      let restResult := extractLoop markers lines (i + 1) rest []
      (inl ++ blk ++ restResult.1, restResult.2)

/-- `extractComments` of the final version. -/
def extractComments (markers : List Marker) (text : List Char) : List Comment :=
  let lines := splitNl text
  let r := extractLoop markers lines 0 lines []
  if r.2.isEmpty then r.1
  else
    let firstCodeIndex := lines.findIdx? (fun l => !(trim l).isEmpty && !isCommentLine markers l)
    let anchorLine := firstCodeIndex.getD 0
    let nextIdx := findCodeFrom markers lines anchorLine
    { ctype := CKind.block,
      anchor := hashLine (lines.getD anchorLine []),
      prevHash := none,
      nextHash := nextIdx.map (fun j => hashLine (lines.getD j [])),
      block := some r.2 } :: r.1

/-- The `(kind, anchor)` key `` `${c.type}:${c.anchor}` `` used by the
reconciler. -/
def recKey (c : Comment) : CKind × Line := (c.ctype, c.anchor)

/-- The anchors of always-show records in the persisted set
(`alwaysShowAnchors` of the final `stripComments`). -/
def alwaysShowAnchors (vcmComments : List Comment) : List Line :=
  (vcmComments.filter (fun c => c.alwaysShow)).map Comment.anchor

/-- The anchors of private records, collected only when
`keepPrivate` is set. -/
def privateAnchors (vcmComments : List Comment) (keepPrivate : Bool) : List Line :=
  if keepPrivate then (vcmComments.filter (fun c => c.isPrivate)).map Comment.anchor
  else []

/-- The original-line indices of all lines of all extracted comment
blocks (`allCommentBlockLines`). -/
def allCommentBlockLines (current : List Comment) : List Nat :=
  current.flatMap (fun c =>
    match c.ctype, c.block with
    | CKind.block, some blk => blk.map BlockLine.originalLine
    | _, _ => [])

/-- Line indices covered by extracted comments whose anchor is in the
given anchor set: all block lines of matching block records plus the
original line of matching inline records (`alwaysShowLines` /
`privateLines`). -/
def linesOfAnchors (current : List Comment) (anchors : List Line) : List Nat :=
  current.flatMap (fun c =>
    if anchors.contains c.anchor then
      match c.ctype, c.block with
      | CKind.block, some blk => blk.map BlockLine.originalLine
      | CKind.block, none => []
      | CKind.inline, _ => c.originalLine.elim [] (fun i => [i])
    else [])

/-- Line indices of inline comments to keep whole
(`inlineCommentsToKeep`: always-show plus kept-private inline
comments). -/
def inlineKeepLines (current : List Comment) (keepAnchors : List Line) : List Nat :=
  current.flatMap (fun c =>
    match c.ctype with
    | CKind.inline =>
      if keepAnchors.contains c.anchor then c.originalLine.elim [] (fun i => [i])
      else []
    | CKind.block => [])

/-- The filter loop of the final `stripComments`. -/
def stripFilterLoop (markers : List Marker) (keepLines blockLines inlineKeep : List Nat) :
    Nat → List Line → List Line
  | _, [] => []
  | i, line :: rest =>
    if keepLines.contains i then
      line :: stripFilterLoop markers keepLines blockLines inlineKeep (i + 1) rest
    else if (trim line).isEmpty then
      if !blockLines.contains i then
        line :: stripFilterLoop markers keepLines blockLines inlineKeep (i + 1) rest
      else stripFilterLoop markers keepLines blockLines inlineKeep (i + 1) rest
    else if isCommentLine markers line then
      stripFilterLoop markers keepLines blockLines inlineKeep (i + 1) rest
    else if inlineKeep.contains i then
      line :: stripFilterLoop markers keepLines blockLines inlineKeep (i + 1) rest
    else
      (match findCommentStart markers line with
       | some p => trimEnd (line.take p)
       | none => line) :: stripFilterLoop markers keepLines blockLines inlineKeep (i + 1) rest

/-- `stripComments` of the final version: keep lines of always-show (and,
with `keepPrivate`, private) records; keep blank lines unless they are
interior block spacing; drop pure comment lines; cut inline comments on
code lines unless the line carries a kept inline comment. -/
def stripComments (markers : List Marker) (text : List Char)
    (vcmComments : List Comment) (keepPrivate : Bool) : List Char :=
  let showAnchors := alwaysShowAnchors vcmComments
  let privAnchors := privateAnchors vcmComments keepPrivate
  let current := extractComments markers text
  let lines := splitNl text
  let blockLines := allCommentBlockLines current
  let showLines := linesOfAnchors current showAnchors
  let privLines := linesOfAnchors current privAnchors
  let inlineKeep := inlineKeepLines current (showAnchors ++ privAnchors)
  joinNl (stripFilterLoop markers (showLines ++ privLines) blockLines inlineKeep 0 lines)

/-- The payload text still expected in the file by `detectInitialMode`:
the text of an inline record, or the text of the first block line of a
block record (absent pieces yield the empty, falsy, string). -/
def commentTextOf (c : Comment) : Line :=
  match c.ctype with
  | CKind.inline => c.text.getD []
  | CKind.block =>
    match c.block with
    | some (b :: _) => b.text
    | _ => []

/-- The sampling loop of `detectInitialMode`.  A record without an
`originalLine` makes `lines[lineIndex]` undefined: with a truthy payload
text the `includes` call then raises a `TypeError` (modelled as
`Except.error`), which the surrounding `try` turns into the no-VCM
fallback; with a falsy payload the check is skipped.  A stored index
beyond the file is skipped; otherwise the first sampled record whose
payload text is no longer contained in its stored line decides `Clean`
(`ok false`), and a fully matching sample decides `Commented`
(`ok true`). -/
def detectLoop (lines : List Line) : List Comment → Except Unit Bool
  | [] => Except.ok true
  | c :: cs =>
    match c.originalLine with
    | none =>
      if (commentTextOf c).isEmpty then detectLoop lines cs
      else Except.error ()
    | some li =>
      if lines.length ≤ li then detectLoop lines cs
      else
        let ct := commentTextOf c
        if !ct.isEmpty && !(jsIncludes (lines.getD li []) ct) then Except.ok false
        else detectLoop lines cs

/-- Does the file contain any comment line (the no-VCM fallback loop of
`detectInitialMode`)? -/
def fileHasComments (markers : List Marker) (lines : List Line) : Bool :=
  lines.any (fun l => !(trim l).isEmpty && isCommentLine markers l)

/-- The number of comment lines in the file (the all-always-show branch
of `detectInitialMode`). -/
def countCommentLines (markers : List Marker) (lines : List Line) : Nat :=
  (lines.filter (fun l => !(trim l).isEmpty && isCommentLine markers l)).length

/-- `detectInitialMode` of the final version.  `persisted = none` models
a missing or unparsable VCM file (the outer `catch`); `true` is
`Commented`, `false` is `Clean`. -/
def detectInitialMode (markers : List Marker) (text : List Char)
    (persisted : Option (List Comment)) : Bool :=
  let lines := splitNl text
  match persisted with
  | none => fileHasComments markers lines
  | some comments =>
    let nonAlwaysShow := comments.filter (fun c => !c.alwaysShow)
    if nonAlwaysShow.isEmpty then
      decide (comments.length < countCommentLines markers lines)
    else
      match detectLoop lines (nonAlwaysShow.take (min 10 nonAlwaysShow.length)) with
      | Except.ok b => b
      | Except.error _ => fileHasComments markers lines

/-- The clean-mode payload derived from a freshly extracted comment
(`current.text` for inline records, `current.block` for block
records), as assigned by the clean branch of `saveVCM`. -/
def cleanPayloadOf (c : Comment) : Option CleanMode :=
  match c.ctype with
  | CKind.inline => c.text.map CleanMode.str
  | CKind.block => c.block.map CleanMode.blk

/-- Update the first record with the given key (`candidates[0]`, the
first existing record with the matching `(kind, anchor)` key). -/
def updateFirstWithKey (k : CKind × Line) (f : Comment → Comment) :
    List Comment → List Comment
  | [] => []
  | e :: rest =>
    if recKey e = k then f e :: rest
    else e :: updateFirstWithKey k f rest

/-- The record created for a comment typed in clean mode with no
existing match: the extracted record with its payload moved into
`text_cleanMode` (`delete newComment.text` / `delete newComment.block`). -/
def newCleanRecord (c : Comment) : Comment :=
  match c.ctype with
  | CKind.inline => { c with text_cleanMode := cleanPayloadOf c, text := none }
  | CKind.block => { c with text_cleanMode := cleanPayloadOf c, block := none }

/-- The routing loop of the clean branch of `saveVCM`: each current
comment is skipped when its key is private; otherwise it updates the
`text_cleanMode` of the first existing record with its key (membership
is decided against the keys of the original persisted list, as the
source's anchor map is built before the loop), or is appended as a new
clean-mode record. -/
def routeCleanLoop (privKeys : List (CKind × Line)) (origKeys : List (CKind × Line)) :
    List Comment → List Comment → List Comment
  | acc, [] => acc
  | acc, current :: rest =>
    if privKeys.contains (recKey current) then
      routeCleanLoop privKeys origKeys acc rest
    else if origKeys.contains (recKey current) then
      routeCleanLoop privKeys origKeys
        (updateFirstWithKey (recKey current)
          (fun e => { e with text_cleanMode := cleanPayloadOf current }) acc) rest
    else
      routeCleanLoop privKeys origKeys (acc ++ [newCleanRecord current]) rest

/-- The clean branch of `saveVCM` (final version): route the comments
extracted from the clean view into `text_cleanMode` fields (skipping
private keys), then clear `text_cleanMode` on every record whose key no
longer appears among the current extractions. -/
def saveVCMClean (existingComments existingPrivateComments currentComments : List Comment) :
    List Comment :=
  let privKeys := existingPrivateComments.map recKey
  let origKeys := existingComments.map recKey
  let routed := routeCleanLoop privKeys origKeys existingComments currentComments
  routed.map (fun e =>
    if currentComments.any (fun c => recKey c = recKey e) then e
    else { e with text_cleanMode := none })

/-- The clean-to-commented merge of `toggleCurrentFileComments`: a record
with a truthy `text_cleanMode` has it prepended to its persisted payload
and nulled out; other records pass through unchanged. -/
def mergeCleanMode (comments : List Comment) : List Comment :=
  comments.map (fun comment =>
    if cmTruthy comment.text_cleanMode then
      match comment.ctype with
      | CKind.inline =>
        { comment with
          text := some (cmStr comment.text_cleanMode ++ comment.text.getD []),
          text_cleanMode := none }
      | CKind.block =>
        { comment with
          block := some (cmBlk comment.text_cleanMode ++ comment.block.getD []),
          text_cleanMode := none }
    else comment)

/-- `saveCommentsToVCM`: split a record list into the shared partition
(records with a falsy `isPrivate`) and the private partition (records
with `isPrivate` set, the flag removed on write). -/
def saveCommentsToVCM (comments : List Comment) : List Comment × List Comment :=
  (comments.filter (fun c => !c.isPrivate),
   (comments.filter (fun c => c.isPrivate)).map (fun c => { c with isPrivate := false }))

end VCM.V2

namespace VCM.RT

open VCM

/-!
Support for the round-trip property.  A text whose comments are all
block or inline comments that the two scanners of the implementation
detect consistently is described by a list of segments: a blank line, a
code line (with an optional inline-comment suffix), or a comment block
(one or more whole comment lines immediately followed by their anchor
code line).
-/

/-- One segment of a well-formed commented text. -/
inductive Seg
  | blankSeg (w : Line)
  | codeSeg (s : Line) (suf : Option Line)
  | blockSeg (cmts : List Line) (s : Line)

/-- The lines a segment contributes to the commented text. -/
def renderSeg : Seg → List Line
  | Seg.blankSeg w => [w]
  | Seg.codeSeg s suf => [s ++ suf.getD []]
  | Seg.blockSeg cmts s => cmts ++ [s]

/-- The commented text described by a segment list, as lines. -/
def render (segs : List Seg) : List Line := segs.flatMap renderSeg

/-- The single line a segment contributes to the stripped text. -/
def cleanLineOf : Seg → Line
  | Seg.blankSeg w => w
  | Seg.codeSeg s _ => s
  | Seg.blockSeg _ s => s

/-- The stripped text described by a segment list, as lines. -/
def cleanRender (segs : List Seg) : List Line := segs.map cleanLineOf

/-- Well-formedness of one segment: its comments are exactly what the
Classifier detects (pure comment lines are classified as comments, code
lines are not; the strip scanner and the extraction regex agree on the
inline-comment boundary of a code line), and comment blocks sit
immediately above their anchor code line. -/
def WFSeg (markers : List Marker) : Seg → Prop
  | Seg.blankSeg w => trim w = [] ∧ findCommentStart markers w = none
  | Seg.codeSeg s none =>
      trim s ≠ [] ∧ isCommentLine markers s = false ∧
      findCommentStart markers s = none ∧ extractInlineIdx markers s = none
  | Seg.codeSeg s (some suf) =>
      trim s ≠ [] ∧ isCommentLine markers (s ++ suf) = false ∧
      extractInlineIdx markers (s ++ suf) = some s.length ∧
      V1.stripLine markers (s ++ suf) = s
  | Seg.blockSeg cmts s =>
      cmts ≠ [] ∧ (∀ c ∈ cmts, isCommentLine markers c = true ∧ trim c ≠ []) ∧
      trim s ≠ [] ∧ isCommentLine markers s = false ∧
      findCommentStart markers s = none ∧ extractInlineIdx markers s = none

/-- The trimmed contents of the code lines of a segment list: the anchor
candidates of injection.  The round-trip property requires them pairwise
distinct (no ambiguous anchors). -/
def codeTrims (segs : List Seg) : List Line :=
  segs.flatMap (fun seg =>
    match seg with
    | Seg.blankSeg _ => []
    | Seg.codeSeg s _ => [trim s]
    | Seg.blockSeg _ s => [trim s])

/-- Attach consecutive original-line indices to buffered comment
lines. -/
def withPositions : Nat → List Line → List BlockLine
  | _, [] => []
  | p, c :: rest => ⟨c, p⟩ :: withPositions (p + 1) rest

/-- The records `extractComments` produces on `render segs`, with the
original-text position threaded through (`lines` is the full line array
used for the context hashes). -/
def specRecs (markers : List Marker) (lines : List Line) : Nat → List Seg → List Comment
  | _, [] => []
  | pos, Seg.blankSeg _ :: rest => specRecs markers lines (pos + 1) rest
  | pos, Seg.codeSeg _ none :: rest => specRecs markers lines (pos + 1) rest
  | pos, Seg.codeSeg s (some suf) :: rest =>
    { ctype := CKind.inline,
      anchor := trim s,
      prevHash := (findPrevCodeLine markers lines pos).map (fun j => hashLine (lines.getD j [])),
      nextHash := (findNextCodeLine markers lines pos).map (fun j => hashLine (lines.getD j [])),
      originalLine := some pos,
      text := some suf } :: specRecs markers lines (pos + 1) rest
  | pos, Seg.blockSeg cmts s :: rest =>
    { ctype := CKind.block,
      anchor := trim s,
      prevHash := (findPrevCodeLine markers lines (pos + cmts.length)).map
        (fun j => hashLine (lines.getD j [])),
      nextHash := (findNextCodeLine markers lines (pos + cmts.length)).map
        (fun j => hashLine (lines.getD j [])),
      block := some (withPositions pos cmts) } :: specRecs markers lines (pos + cmts.length + 1) rest

/-- The block records among `specRecs`. -/
def blockSpecs (markers : List Marker) (lines : List Line) : Nat → List Seg → List Comment
  | _, [] => []
  | pos, Seg.blankSeg _ :: rest => blockSpecs markers lines (pos + 1) rest
  | pos, Seg.codeSeg _ _ :: rest => blockSpecs markers lines (pos + 1) rest
  | pos, Seg.blockSeg cmts s :: rest =>
    { ctype := CKind.block,
      anchor := trim s,
      prevHash := (findPrevCodeLine markers lines (pos + cmts.length)).map
        (fun j => hashLine (lines.getD j [])),
      nextHash := (findNextCodeLine markers lines (pos + cmts.length)).map
        (fun j => hashLine (lines.getD j [])),
      block := some (withPositions pos cmts) } :: blockSpecs markers lines (pos + cmts.length + 1) rest

/-- The inline records among `specRecs`. -/
def inlineSpecs (markers : List Marker) (lines : List Line) : Nat → List Seg → List Comment
  | _, [] => []
  | pos, Seg.blankSeg _ :: rest => inlineSpecs markers lines (pos + 1) rest
  | pos, Seg.codeSeg _ none :: rest => inlineSpecs markers lines (pos + 1) rest
  | pos, Seg.codeSeg s (some suf) :: rest =>
    { ctype := CKind.inline,
      anchor := trim s,
      prevHash := (findPrevCodeLine markers lines pos).map (fun j => hashLine (lines.getD j [])),
      nextHash := (findNextCodeLine markers lines pos).map (fun j => hashLine (lines.getD j [])),
      originalLine := some pos,
      text := some suf } :: inlineSpecs markers lines (pos + 1) rest
  | pos, Seg.blockSeg cmts _ :: rest => inlineSpecs markers lines (pos + cmts.length + 1) rest

/-- The anchor a segment resolves through during injection, if any. -/
def anchorOf : Seg → Option Line
  | Seg.blankSeg _ => none
  | Seg.codeSeg s _ => some (trim s)
  | Seg.blockSeg _ s => some (trim s)

/-- The hash-to-indices map `injectComments` builds on the stripped
text of a segment list with pairwise distinct anchors: one singleton
bucket per code line, keyed by clean line index. -/
def hashPairs : Nat → List Seg → List (Line × List Nat)
  | _, [] => []
  | k, Seg.blankSeg _ :: rest => hashPairs (k + 1) rest
  | k, Seg.codeSeg s _ :: rest => (trim s, [k]) :: hashPairs (k + 1) rest
  | k, Seg.blockSeg _ s :: rest => (trim s, [k]) :: hashPairs (k + 1) rest

/-- Positional access into a segment list with a blank default. -/
def segD (segs : List Seg) (j : Nat) : Seg := segs.getD j (Seg.blankSeg [])

/-- The comment lines a segment contributes above its clean line. -/
def blockLinesOf : Seg → List Line
  | Seg.blockSeg cmts _ => cmts
  | _ => []

/-- The inline suffix a segment carries on its clean line. -/
def sufOf : Seg → Line
  | Seg.codeSeg _ (some suf) => suf
  | _ => []

/-- The clean-line index injection resolves a record's anchor to: the
head of the anchor's bucket in the hash-to-indices map. -/
def idxOfAnchor (hmap : List (Line × List Nat)) (c : Comment) : Nat :=
  ((mapLookup hmap c.anchor).getD []).headD 0

/-- The block record extraction emits for a comment block anchored at
original position `pos + cmts.length`. -/
def blockRecOf (markers : List Marker) (lines : List Line) (pos : Nat) (cmts : List Line)
    (s : Line) : Comment :=
  { ctype := CKind.block,
    anchor := trim s,
    prevHash := (findPrevCodeLine markers lines (pos + cmts.length)).map
      (fun j => hashLine (lines.getD j [])),
    nextHash := (findNextCodeLine markers lines (pos + cmts.length)).map
      (fun j => hashLine (lines.getD j [])),
    block := some (withPositions pos cmts) }

/-- The inline record extraction emits for a code line at original
position `pos` with inline suffix `suf`. -/
def inlineRecOf (markers : List Marker) (lines : List Line) (pos : Nat) (s suf : Line) :
    Comment :=
  { ctype := CKind.inline,
    anchor := trim s,
    prevHash := (findPrevCodeLine markers lines pos).map
      (fun j => hashLine (lines.getD j [])),
    nextHash := (findNextCodeLine markers lines pos).map
      (fun j => hashLine (lines.getD j [])),
    originalLine := some pos,
    text := some suf }

/-- The inline suffix the rebuild loop appends for a bucket of the
inline map: that of the first record, nothing for a missing or empty
bucket. -/
def imapEmit : Option (List Comment) → Line
  | some (inl :: _) => V1.inlineSuffix inl
  | _ => []

/-- The clean-line-index-to-block-records map injection builds on the
stripped text of a segment list with pairwise distinct anchors (`pos` is
the original-text line position, `k` the clean-line index). -/
def bmapPairs (markers : List Marker) (lines : List Line) :
    Nat → Nat → List Seg → List (Nat × List Comment)
  | _, _, [] => []
  | pos, k, Seg.blankSeg _ :: rest => bmapPairs markers lines (pos + 1) (k + 1) rest
  | pos, k, Seg.codeSeg _ _ :: rest => bmapPairs markers lines (pos + 1) (k + 1) rest
  | pos, k, Seg.blockSeg cmts s :: rest =>
    (k, [blockRecOf markers lines pos cmts s]) ::
      bmapPairs markers lines (pos + cmts.length + 1) (k + 1) rest

/-- The clean-line-index-to-inline-records map injection builds on the
stripped text of a segment list with pairwise distinct anchors. -/
def imapPairs (markers : List Marker) (lines : List Line) :
    Nat → Nat → List Seg → List (Nat × List Comment)
  | _, _, [] => []
  | pos, k, Seg.blankSeg _ :: rest => imapPairs markers lines (pos + 1) (k + 1) rest
  | pos, k, Seg.codeSeg _ none :: rest => imapPairs markers lines (pos + 1) (k + 1) rest
  | pos, k, Seg.codeSeg s (some suf) :: rest =>
    (k, [inlineRecOf markers lines pos s suf]) :: imapPairs markers lines (pos + 1) (k + 1) rest
  | pos, k, Seg.blockSeg cmts _ :: rest => imapPairs markers lines (pos + cmts.length + 1) (k + 1) rest

instance wfSegDecidable (markers : List Marker) : ∀ seg : Seg, Decidable (WFSeg markers seg)
  | Seg.blankSeg w =>
    inferInstanceAs (Decidable (trim w = [] ∧ findCommentStart markers w = none))
  | Seg.codeSeg s none =>
    inferInstanceAs (Decidable (trim s ≠ [] ∧ isCommentLine markers s = false ∧
      findCommentStart markers s = none ∧ extractInlineIdx markers s = none))
  | Seg.codeSeg s (some suf) =>
    inferInstanceAs (Decidable (trim s ≠ [] ∧ isCommentLine markers (s ++ suf) = false ∧
      extractInlineIdx markers (s ++ suf) = some s.length ∧
      V1.stripLine markers (s ++ suf) = s))
  | Seg.blockSeg cmts s =>
    inferInstanceAs (Decidable (cmts ≠ [] ∧
      (∀ c ∈ cmts, isCommentLine markers c = true ∧ trim c ≠ []) ∧
      trim s ≠ [] ∧ isCommentLine markers s = false ∧
      findCommentStart markers s = none ∧ extractInlineIdx markers s = none))

end VCM.RT

namespace VCM

/-- Equality of two comment records up to the `text_cleanMode` field. -/
def eqModCM (a b : Comment) : Prop :=
  { a with text_cleanMode := none } = { b with text_cleanMode := none }

/-- The string-scanner state of `findCommentStart` before position `i`
of the line, obtained by folding the scan transition over the prefix. -/
def stringStateAt (line : Line) (i : Nat) : ScanState :=
  (line.take i).foldl scanStep initScan

/-- Position `i` of the line is inside a string literal as far as the
string-aware scanner is concerned. -/
def insideStringAt (line : Line) (i : Nat) : Prop :=
  (stringStateAt line i).stringChar ≠ none

instance insideStringAtDecidable (line : Line) (i : Nat) : Decidable (insideStringAt line i) :=
  inferInstanceAs (Decidable ((stringStateAt line i).stringChar ≠ none))

/-- A whitespace-preceded marker occurrence at position `i` of the line
(the condition under which `findCommentStart` reports a comment when
outside a string). -/
def wsMarkerAt (markers : List Marker) (line : Line) (i : Nat) : Bool :=
  markerHitAt markers (line.take i).getLast? (line.getD i ' ') (line.drop (i + 1))

/-- The sample `detectInitialMode` draws from a persisted record set:
the first up-to-10 records that are not always-visible. -/
def sampleOf (comments : List Comment) : List Comment :=
  let nonAlwaysShow := comments.filter (fun c => !c.alwaysShow)
  nonAlwaysShow.take (min 10 nonAlwaysShow.length)

/-- One sampled presence check of `detectInitialMode` fails: the record
stores a valid original line and a non-empty payload text that is no
longer contained in that line of the current text. -/
def checkFails (lines : List Line) (c : Comment) : Bool :=
  match c.originalLine with
  | some li =>
    li < lines.length &&
      (!(V2.commentTextOf c).isEmpty && !(jsIncludes (lines.getD li []) (V2.commentTextOf c)))
  | none => false

/-- Modelled from the spec: "most of the sampled checks fail" — a strict
majority of the sampled records fail their presence check.  This is the
spec's decision rule for `Clean`, stated for comparison with the
implementation. -/
def mostChecksFail (lines : List Line) (comments : List Comment) : Prop :=
  (sampleOf comments).length < 2 * ((sampleOf comments).filter (checkFails lines)).length

/-- Is the anchor of a record resolvable in the hash-to-indices map
(`indices && indices.length > 0`)? -/
def anchorResolvable (hmap : List (Line × List Nat)) (r : Comment) : Bool :=
  match mapLookup hmap r.anchor with
  | some idx => !idx.isEmpty
  | none => false

end VCM

namespace VCM.Fix

open VCM

/-!
Concrete fixtures used by counterexamples and witnesses.
-/

/-- A persisted inline record anchored at `a` with payload `" # o"`. -/
def inO : Comment :=
  { ctype := CKind.inline, anchor := ['a'], text := some " # o".data }

/-- A persisted inline record anchored at `b` with payload `" # p"` and a
clean-mode payload `" # q"`. -/
def inP : Comment :=
  { ctype := CKind.inline, anchor := ['b'], text := some " # p".data,
    text_cleanMode := some (CleanMode.str " # q".data) }

/-- A current extraction containing only an inline comment at anchor
`a`. -/
def curN : Comment :=
  { ctype := CKind.inline, anchor := ['a'], text := some " # n".data }

/-- An inline record whose `text_cleanMode` is the empty string:
non-null but falsy in JavaScript. -/
def emptyCM : Comment :=
  { ctype := CKind.inline, anchor := ['x'], text := some " # old".data,
    text_cleanMode := some (CleanMode.str []) }

/-- A block record with a persisted payload and a clean-mode payload, as
left by a clean-mode save of `# new note` above `return 1`. -/
def blockWithCM : Comment :=
  { ctype := CKind.block, anchor := hashLine "    return 1".data,
    block := some [⟨"    # explain".data, 1⟩],
    text_cleanMode := some (CleanMode.blk [⟨"    # new note".data, 1⟩]) }

/-- An inline record with a clean-mode string payload. -/
def inlineWithCM : Comment :=
  { ctype := CKind.inline, anchor := hashLine "x = 1".data,
    originalLine := some 0, text := some "  # old".data,
    text_cleanMode := some (CleanMode.str "  # new".data) }

/-- A private block record anchored at `x = 1`. -/
def privBlock : Comment :=
  { ctype := CKind.block, anchor := hashLine "x = 1".data, isPrivate := true }

/-- An always-show block record anchored at `y = 2`. -/
def showBlock : Comment :=
  { ctype := CKind.block, anchor := hashLine "y = 2".data, alwaysShow := true }

/-- A text with a private comment above `x = 1`, an always-show comment
above `y = 2`, and an inline comment on `z = 3`. -/
def privText : List Char := "# priv\nx = 1\n# show\ny = 2\nz = 3  # zc".data

/-- Three persisted inline records for the mode-detection
counterexample, stored at lines 0, 1 and 2. -/
def detRecs : List Comment :=
  [{ ctype := CKind.inline, anchor := ['a'], originalLine := some 0, text := some "# a".data },
   { ctype := CKind.inline, anchor := ['b'], originalLine := some 1, text := some "# b".data },
   { ctype := CKind.inline, anchor := ['c'], originalLine := some 2, text := some "# c".data }]

/-- A current text in which two of the three recorded comments are still
present and one (`# c`) has been removed. -/
def detText : List Char := "p = 1  # a\nq = 2  # b\nr = 3".data

/-- The text of the anchor-disambiguation scenario: two identical code
lines `x = 1`, each preceded by a distinct comment, with distinct context
lines. -/
def c2Text : List Char := "a = 0\n# first\nx = 1\nb = 2\n# second\nx = 1\nc = 3".data

/-- The stripped version of `c2Text`. -/
def c2Clean : List Char := "a = 0\nx = 1\nb = 2\nx = 1\nc = 3".data

/-- The block record of the first `# first` comment of `c2Text`, with its
context fingerprints. -/
def c2Block1 : Comment :=
  { ctype := CKind.block, anchor := hashLine "x = 1".data,
    prevHash := some (hashLine "a = 0".data), nextHash := some (hashLine "b = 2".data),
    block := some [⟨"# first".data, 1⟩] }

/-- A comment block separated from its anchor by a blank line. -/
def blankGapText : List Char := "# c\n\nx = 1".data

/-- A comment block whose anchor code line carries an inline comment. -/
def inlineAnchorText : List Char := "# c\nx = 1  # d".data

/-- A line whose only `#` occurrences are inside a double-quoted string
literal. -/
def stringLine : Line := "x = \"a # b\"".data

/-- A block record whose anchor line no longer exists in the clean
text. -/
def orphanRec : Comment :=
  { ctype := CKind.block, anchor := hashLine "deleted = 0".data,
    block := some [⟨"# gone".data, 0⟩] }

/-- A well-formed segment list for the amended round-trip property: a
comment block over `x = 1`, a blank line, `y = 2` with an inline
comment, and a bare `z = 3`. -/
def c1Segs : List RT.Seg :=
  [RT.Seg.blockSeg ["# a".data] "x = 1".data,
   RT.Seg.blankSeg [],
   RT.Seg.codeSeg "y = 2".data (some "  # b".data),
   RT.Seg.codeSeg "z = 3".data none]

end VCM.Fix

namespace VCM

/-! Basic whitespace and line lemmas. -/

theorem dropWhile_append_all {α : Type} {p : α → Bool} {xs ys : List α}
    (h : ∀ a ∈ xs, p a = true) :
    (xs ++ ys).dropWhile p = ys.dropWhile p := by
  induction xs with
  | nil => rfl
  | cons a rest ih =>
    have ha : p a = true := h a (List.mem_cons_self a rest)
    simp only [List.cons_append, List.dropWhile_cons, ha, if_true]
    exact ih (fun b hb => h b (List.mem_cons_of_mem a hb))

theorem trimStart_append_ws {w x : Line} (h : ∀ c ∈ w, isWs c = true) :
    trimStart (w ++ x) = trimStart x := by
  unfold trimStart
  exact dropWhile_append_all h

theorem trimEnd_append_ws {x w : Line} (h : ∀ c ∈ w, isWs c = true) :
    trimEnd (x ++ w) = trimEnd x := by
  unfold trimEnd
  rw [List.reverse_append]
  rw [dropWhile_append_all (fun c hc => h c (List.mem_reverse.mp hc))]

theorem trimEnd_split (l : Line) :
    ∃ w, l = trimEnd l ++ w ∧ ∀ c ∈ w, isWs c = true := by
  refine ⟨(l.reverse.takeWhile isWs).reverse, ?_, ?_⟩
  · conv_lhs => rw [← List.reverse_reverse l, ← List.takeWhile_append_dropWhile isWs l.reverse]
    rw [List.reverse_append]
    rfl
  · intro c hc
    exact List.mem_takeWhile_imp (List.mem_reverse.mp hc)

theorem trimStart_eq_nil_iff {l : Line} :
    trimStart l = [] ↔ ∀ c ∈ l, isWs c = true := by
  unfold trimStart
  exact List.dropWhile_eq_nil_iff

theorem trimEnd_eq_nil_iff {l : Line} :
    trimEnd l = [] ↔ ∀ c ∈ l, isWs c = true := by
  unfold trimEnd
  rw [List.reverse_eq_nil_iff, List.dropWhile_eq_nil_iff]
  constructor
  · intro h c hc
    exact h c (List.mem_reverse.mpr hc)
  · intro h c hc
    exact h c (List.mem_reverse.mp hc)

theorem trim_eq_nil_iff {l : Line} :
    trim l = [] ↔ ∀ c ∈ l, isWs c = true := by
  unfold trim
  rw [trimEnd_eq_nil_iff]
  constructor
  · intro h c hc
    by_cases hw : isWs c = true
    · exact hw
    · exfalso
      have : c ∈ trimStart l := by
        unfold trimStart
        have := List.takeWhile_append_dropWhile isWs l
        rcases List.mem_append.mp (by rw [this]; exact hc) with h1 | h1
        · exact absurd (List.mem_takeWhile_imp h1) hw
        · exact h1
      exact hw (h c this)
  · intro h c hc
    exact h c (List.Sublist.mem hc (List.dropWhile_sublist isWs))

theorem trim_append_ws_right {x w : Line} (h : ∀ c ∈ w, isWs c = true) :
    trim (x ++ w) = trim x := by
  unfold trim
  by_cases hx : trimStart x = []
  · rw [hx]
    have hxw : ∀ c ∈ x, isWs c = true := trimStart_eq_nil_iff.mp hx
    have : trimStart (x ++ w) = [] := by
      rw [trimStart_eq_nil_iff]
      intro c hc
      rcases List.mem_append.mp hc with h1 | h1
      · exact hxw c h1
      · exact h c h1
    rw [this]
  · have : trimStart (x ++ w) = trimStart x ++ w := by
      unfold trimStart at hx ⊢
      rw [List.dropWhile_append]
      simp only [List.isEmpty_iff]
      rw [if_neg hx]
    rw [this, trimEnd_append_ws h]

theorem trim_append_ws_left {w x : Line} (h : ∀ c ∈ w, isWs c = true) :
    trim (w ++ x) = trim x := by
  unfold trim
  rw [trimStart_append_ws h]

theorem trim_trimEnd (l : Line) : trim (trimEnd l) = trim l := by
  obtain ⟨w, hw, hws⟩ := trimEnd_split l
  conv_rhs => rw [hw]
  rw [trim_append_ws_right hws]

theorem trim_append_ne_nil {s t : Line} (h : trim s ≠ []) : trim (s ++ t) ≠ [] := by
  intro hc
  apply h
  rw [trim_eq_nil_iff] at hc ⊢
  intro c hcs
  exact hc c (List.mem_append.mpr (Or.inl hcs))

theorem splitNl_ne_nil (t : List Char) : splitNl t ≠ [] := by
  cases t with
  | nil => simp [splitNl]
  | cons c rest =>
    simp only [splitNl]
    by_cases hc : c = '\n'
    · rw [if_pos hc]; simp
    · rw [if_neg hc]
      cases splitNl rest with
      | nil => simp
      | cons t ts => simp

theorem splitNl_append_line (x tail : List Char) (hx : ∀ c ∈ x, c ≠ '\n') :
    splitNl (x ++ tail) = (x ++ (splitNl tail).headD []) :: (splitNl tail).tail := by
  induction x with
  | nil =>
    cases h : splitNl tail with
    | nil => exact absurd h (splitNl_ne_nil tail)
    | cons t ts => simp [h]
  | cons c cs ihx =>
    have hc : c ≠ '\n' := hx c (List.mem_cons_self c cs)
    have ih := ihx (fun d hd => hx d (List.mem_cons_of_mem c hd))
    simp only [List.cons_append, splitNl, if_neg hc]
    rw [show cs.append tail = cs ++ tail from rfl, ih]

theorem joinNl_cons_cons (l l2 : Line) (rest : List Line) :
    joinNl (l :: l2 :: rest) = l ++ '\n' :: joinNl (l2 :: rest) := by
  unfold joinNl
  simp [List.intercalate, List.intersperse]

theorem joinNl_single (l : Line) : joinNl [l] = l := by
  unfold joinNl
  simp [List.intercalate, List.intersperse]

theorem splitNl_joinNl : ∀ (L : List Line), L ≠ [] →
    (∀ l ∈ L, ∀ c ∈ l, c ≠ '\n') → splitNl (joinNl L) = L := by
  intro L
  induction L with
  | nil => intro h; exact absurd rfl h
  | cons l rest ih =>
    intro _ hnl
    cases rest with
    | nil =>
      rw [joinNl_single, show l = l ++ [] by simp,
        splitNl_append_line l [] (by simpa using hnl l (List.mem_cons_self l []))]
      rfl
    | cons l2 rest2 =>
      rw [joinNl_cons_cons, splitNl_append_line l _ (hnl l (List.mem_cons_self l _))]
      have hsplit : splitNl ('\n' :: joinNl (l2 :: rest2)) = [] :: splitNl (joinNl (l2 :: rest2)) := by
        simp [splitNl]
      rw [hsplit, ih (by simp) (fun x hx => hnl x (List.mem_cons_of_mem l hx))]
      simp

end VCM

namespace VCM

/-! Record-equality-up-to-`text_cleanMode` helpers. -/

theorem eqModCM_refl (a : Comment) : eqModCM a a := rfl

theorem eqModCM_trans {a b c : Comment} (h1 : eqModCM a b) (h2 : eqModCM b c) :
    eqModCM a c := h1.trans h2

theorem eqModCM_set_cm (a : Comment) (x : Option CleanMode) :
    eqModCM { a with text_cleanMode := x } a := rfl

theorem eqModCM_recKey {a b : Comment} (h : eqModCM a b) : V2.recKey a = V2.recKey b := by
  unfold eqModCM at h
  unfold V2.recKey
  have h1 := congrArg Comment.ctype h
  have h2 := congrArg Comment.anchor h
  simp only at h1 h2
  rw [h1, h2]

theorem forall₂_eqModCM_refl : ∀ l : List Comment, List.Forall₂ eqModCM l l
  | [] => List.Forall₂.nil
  | a :: l => List.Forall₂.cons (eqModCM_refl a) (forall₂_eqModCM_refl l)

theorem forall₂_eqModCM_trans : ∀ {l1 l2 l3 : List Comment},
    List.Forall₂ eqModCM l1 l2 → List.Forall₂ eqModCM l2 l3 → List.Forall₂ eqModCM l1 l3 := by
  intro l1 l2 l3 h1 h2
  induction h1 generalizing l3 with
  | nil => cases h2; exact List.Forall₂.nil
  | cons hab htail ih =>
    cases h2 with
    | cons hbc htail2 => exact List.Forall₂.cons (eqModCM_trans hab hbc) (ih htail2)

theorem updateFirst_forall₂ (k : CKind × Line) (f : Comment → Comment)
    (hf : ∀ e, eqModCM (f e) e) :
    ∀ l : List Comment, List.Forall₂ eqModCM (V2.updateFirstWithKey k f l) l := by
  intro l
  induction l with
  | nil => exact List.Forall₂.nil
  | cons e rest ih =>
    unfold V2.updateFirstWithKey
    by_cases h : V2.recKey e = k
    · rw [if_pos h]
      exact List.Forall₂.cons (hf e) (forall₂_eqModCM_refl rest)
    · rw [if_neg h]
      exact List.Forall₂.cons (eqModCM_refl e) ih

theorem routeCleanLoop_take (pk ok : List (CKind × Line)) :
    ∀ (cur acc : List Comment) (n : Nat), n ≤ acc.length →
      List.Forall₂ eqModCM ((V2.routeCleanLoop pk ok acc cur).take n) (acc.take n) := by
  intro cur
  induction cur with
  | nil =>
    intro acc n _
    exact List.forall₂_take n (forall₂_eqModCM_refl acc)
  | cons current rest ih =>
    intro acc n hn
    unfold V2.routeCleanLoop
    by_cases h1 : pk.contains (V2.recKey current)
    · rw [if_pos h1]
      exact ih acc n hn
    · rw [if_neg h1]
      by_cases h2 : ok.contains (V2.recKey current)
      · rw [if_pos h2]
        have hupd := updateFirst_forall₂ (V2.recKey current)
          (fun e => { e with text_cleanMode := V2.cleanPayloadOf current })
          (fun e => eqModCM_set_cm e _) acc
        have hlen : (V2.updateFirstWithKey (V2.recKey current)
            (fun e => { e with text_cleanMode := V2.cleanPayloadOf current }) acc).length
            = acc.length := hupd.length_eq
        have := ih (V2.updateFirstWithKey (V2.recKey current)
          (fun e => { e with text_cleanMode := V2.cleanPayloadOf current }) acc) n
          (by rw [hlen]; exact hn)
        exact forall₂_eqModCM_trans this (List.forall₂_take n hupd)
      · rw [if_neg h2]
        have := ih (acc ++ [V2.newCleanRecord current]) n
          (by rw [List.length_append]; exact Nat.le_succ_of_le hn)
        rwa [List.take_append_of_le_length hn] at this

/-- Claim C3: a save reconciled in Clean mode touches only the
`text_cleanMode` field of the existing records (their commented-mode
payloads — `text` and `block` — and every other field are preserved, in
place), and a record whose `(kind, anchor)` key is absent from the
current extraction gets `text_cleanMode = none`. -/
theorem c3_clean_save_frame (existing priv current : List Comment) :
    List.Forall₂
      (fun e' e => eqModCM e' e ∧
        ((∀ c ∈ current, V2.recKey c ≠ V2.recKey e) → e'.text_cleanMode = none))
      ((V2.saveVCMClean existing priv current).take existing.length) existing := by
  unfold V2.saveVCMClean
  rw [← List.map_take]
  have hroute : List.Forall₂ eqModCM
      ((V2.routeCleanLoop (priv.map V2.recKey) (existing.map V2.recKey) existing current).take
        existing.length) existing := by
    have := routeCleanLoop_take (priv.map V2.recKey) (existing.map V2.recKey) current existing
      existing.length (Nat.le_refl _)
    rwa [List.take_length] at this
  revert hroute
  generalize (V2.routeCleanLoop (priv.map V2.recKey) (existing.map V2.recKey) existing
    current).take existing.length = routed
  intro hroute
  induction hroute with
  | nil => exact List.Forall₂.nil
  | cons hab htail ih =>
    rename_i a b _ _
    refine List.Forall₂.cons ⟨?_, ?_⟩ ih
    · by_cases h : current.any (fun c => decide (V2.recKey c = V2.recKey a))
      · simp only [List.map, h, if_pos]
        exact hab
      · simp only [List.map]
        rw [if_neg (by simpa using h)]
        exact eqModCM_trans (eqModCM_set_cm a none) hab
    · intro habs
      have hkey : V2.recKey a = V2.recKey b := eqModCM_recKey hab
      have hany : current.any (fun c => decide (V2.recKey c = V2.recKey a)) = false := by
        rw [List.any_eq_false]
        intro c hc
        simp only [decide_eq_true_eq]
        rw [hkey]
        exact habs c hc
      simp only [List.map]
      rw [if_neg (by simp [hany])]

/-- Witness for C3 at a concrete reconciliation: one matching record and
one record whose key vanished from the current extraction; the derived
facts are evaluated on the concrete output. -/
theorem c3_witness :
    List.Forall₂
      (fun e' e => eqModCM e' e ∧
        ((∀ c ∈ [Fix.curN], V2.recKey c ≠ V2.recKey e) → e'.text_cleanMode = none))
      ((V2.saveVCMClean [Fix.inO, Fix.inP] [] [Fix.curN]).take 2)
      [Fix.inO, Fix.inP] :=
  c3_clean_save_frame [Fix.inO, Fix.inP] [] [Fix.curN]

end VCM

namespace VCM

/-- Claim C9: the line fingerprint is a pure function of the trimmed
line content with no line-number salt — it is unchanged by any change to
leading/trailing whitespace only, and two lines with different trimmed
contents have different fingerprints. -/
theorem c9_fingerprint_stability :
    (∀ l₁ l₂ : Line, trim l₁ = trim l₂ → hashLine l₁ = hashLine l₂)
    ∧ (∀ a b l : Line, (∀ c ∈ a, isWs c = true) → (∀ c ∈ b, isWs c = true) →
        hashLine (a ++ l ++ b) = hashLine l)
    ∧ (∀ l₁ l₂ : Line, trim l₁ ≠ trim l₂ → hashLine l₁ ≠ hashLine l₂) := by
  refine ⟨fun l₁ l₂ h => h, fun a b l ha hb => ?_, fun l₁ l₂ h => h⟩
  unfold hashLine
  rw [trim_append_ws_right hb, trim_append_ws_left ha]

/-- Witness for C9: reindentation does not change the fingerprint;
changed content does. -/
theorem c9_witness :
    hashLine "    x = 1".data = hashLine "x = 1  ".data
    ∧ hashLine "x = 1".data ≠ hashLine "x = 2".data :=
  ⟨c9_fingerprint_stability.1 "    x = 1".data "x = 1  ".data (by decide),
   c9_fingerprint_stability.2.2 "x = 1".data "x = 2".data (by decide)⟩

/-- Counterexample for C4: a record whose `text_cleanMode` is the empty
string — non-null, but falsy in JavaScript — passes through the
clean-to-commented merge completely unchanged: nothing is prepended and,
contrary to the claim, `text_cleanMode` is not set to null. -/
theorem c4_counterexample :
    V2.mergeCleanMode [Fix.emptyCM] = [Fix.emptyCM]
    ∧ Fix.emptyCM.text_cleanMode ≠ none := by
  constructor
  · rfl
  · intro h
    simp [Fix.emptyCM] at h

/-- Claim C4 (amended): on the Clean-to-Commented toggle, every record
with a truthy `text_cleanMode` (non-null and, for inline records,
non-empty) has the clean-mode content prepended to its persisted payload
and `text_cleanMode` nulled out, all other fields unchanged; records with
a falsy `text_cleanMode` are unchanged; injecting the merged set shows
the clean-mode note above the original comment (newest first). -/
theorem c4_clean_to_commented_merge :
    (∀ comments : List Comment,
      List.Forall₂ (fun m c =>
        (cmTruthy c.text_cleanMode = true → c.ctype = CKind.inline →
          m = { c with text := some (cmStr c.text_cleanMode ++ c.text.getD []),
                       text_cleanMode := none })
        ∧ (cmTruthy c.text_cleanMode = true → c.ctype = CKind.block →
          m = { c with block := some (cmBlk c.text_cleanMode ++ c.block.getD []),
                       text_cleanMode := none })
        ∧ (cmTruthy c.text_cleanMode = false → m = c))
        (V2.mergeCleanMode comments) comments)
    ∧ V1.injectComments "def f():\n    return 1\n".data (V2.mergeCleanMode [Fix.blockWithCM])
        = "def f():\n    # new note\n    # explain\n    return 1\n".data := by
  constructor
  · intro comments
    induction comments with
    | nil => exact List.Forall₂.nil
    | cons c rest ih =>
      refine List.Forall₂.cons ⟨?_, ?_, ?_⟩ ih
      · intro ht hk
        simp only [V2.mergeCleanMode, ht, if_pos, hk]
      · intro ht hk
        simp only [V2.mergeCleanMode, ht, if_pos, hk]
      · intro hf
        simp only [V2.mergeCleanMode, hf]
        rw [if_neg (by simp)]
  · decide

/-- Witness for C4: the merge applied to a concrete inline record with a
clean-mode note, with the hypotheses discharged by evaluation. -/
theorem c4_witness :
    (V2.mergeCleanMode [Fix.inlineWithCM]).headD Fix.inlineWithCM
      = { Fix.inlineWithCM with
          text := some (cmStr Fix.inlineWithCM.text_cleanMode ++
            Fix.inlineWithCM.text.getD []),
          text_cleanMode := none } := by
  have h := c4_clean_to_commented_merge.1 [Fix.inlineWithCM]
  cases h with
  | cons hrel _ =>
    exact hrel.1 (by decide) (by decide)

end VCM

namespace VCM

theorem forall₂_map_self {α β : Type} (f : α → β) :
    ∀ l : List α, List.Forall₂ (fun w c => w = f c) (l.map f) l
  | [] => List.Forall₂.nil
  | _ :: l => List.Forall₂.cons rfl (forall₂_map_self f l)

/-- Claim C5: private isolation.  The shared partition written by
`saveCommentsToVCM` contains only records with a falsy `isPrivate`;
exactly the private records go to the private partition, each with the
flag omitted.  The clean-mode routing of `saveVCM` skips every current
comment whose `(kind, anchor)` key belongs to the private set.  And
stripping with `keepPrivate = false` removes the private comment line
while the always-visible comment line is kept. -/
theorem c5_private_isolation :
    (∀ comments : List Comment,
      (∀ c ∈ (V2.saveCommentsToVCM comments).1, c.isPrivate = false)
      ∧ List.Forall₂ (fun w c => w = { c with isPrivate := false })
          (V2.saveCommentsToVCM comments).2 (comments.filter (fun c => c.isPrivate)))
    ∧ (∀ (privKeys origKeys : List (CKind × Line)) (acc current : List Comment),
        V2.routeCleanLoop privKeys origKeys acc current =
          V2.routeCleanLoop privKeys origKeys acc
            (current.filter (fun c => !privKeys.contains (V2.recKey c))))
    ∧ V2.stripComments pyMarkers Fix.privText [Fix.privBlock, Fix.showBlock] false
        = "x = 1\n# show\ny = 2\nz = 3".data := by
  refine ⟨fun comments => ⟨?_, ?_⟩, fun privKeys origKeys acc current => ?_, by decide⟩
  · intro c hc
    have := List.of_mem_filter hc
    simpa using this
  · exact forall₂_map_self _ _
  · have hcons : ∀ (acc : List Comment) (cur : Comment) (rest : List Comment),
        V2.routeCleanLoop privKeys origKeys acc (cur :: rest) =
          if privKeys.contains (V2.recKey cur) then V2.routeCleanLoop privKeys origKeys acc rest
          else if origKeys.contains (V2.recKey cur) then
            V2.routeCleanLoop privKeys origKeys
              (V2.updateFirstWithKey (V2.recKey cur)
                (fun e => { e with text_cleanMode := V2.cleanPayloadOf cur }) acc) rest
          else V2.routeCleanLoop privKeys origKeys (acc ++ [V2.newCleanRecord cur]) rest :=
      fun _ _ _ => rfl
    induction current generalizing acc with
    | nil => rfl
    | cons cur rest ih =>
      by_cases h1 : privKeys.contains (V2.recKey cur)
      · have h1' : V2.recKey cur ∈ privKeys := by simpa using h1
        rw [show (cur :: rest).filter (fun c => !privKeys.contains (V2.recKey c))
            = rest.filter (fun c => !privKeys.contains (V2.recKey c)) by
          rw [List.filter_cons]
          simp [h1']]
        rw [hcons, if_pos h1]
        exact ih acc
      · have h1' : V2.recKey cur ∉ privKeys := by simpa using h1
        rw [show (cur :: rest).filter (fun c => !privKeys.contains (V2.recKey c))
            = cur :: rest.filter (fun c => !privKeys.contains (V2.recKey c)) by
          rw [List.filter_cons]
          simp [h1']]
        rw [hcons, hcons, if_neg h1, if_neg h1]
        by_cases h2 : origKeys.contains (V2.recKey cur)
        · rw [if_pos h2, if_pos h2]
          exact ih _
        · rw [if_neg h2, if_neg h2]
          exact ih _

/-- Witness for C5: on a concrete mixed record list, the record kept in
the shared partition is not private, and the private partition is the
flag-stripped private record. -/
theorem c5_witness :
    ((V2.saveCommentsToVCM [Fix.privBlock, Fix.showBlock]).1.headD Fix.privBlock).isPrivate
      = false
    ∧ List.Forall₂ (fun w c => w = { c with isPrivate := false })
        (V2.saveCommentsToVCM [Fix.privBlock, Fix.showBlock]).2
        ([Fix.privBlock, Fix.showBlock].filter (fun c => c.isPrivate)) :=
  ⟨(c5_private_isolation.1 [Fix.privBlock, Fix.showBlock]).1 _ (by decide),
   (c5_private_isolation.1 [Fix.privBlock, Fix.showBlock]).2⟩

end VCM

namespace VCM

theorem detectLoop_ok (lines : List Line) :
    ∀ cs : List Comment, (∀ c ∈ cs, c.originalLine.isSome = true) →
      V2.detectLoop lines cs = Except.ok (!cs.any (checkFails lines)) := by
  intro cs
  induction cs with
  | nil => intro _; rfl
  | cons c rest ih =>
    intro h
    have hc := h c (List.mem_cons_self c rest)
    have hrest := fun d hd => h d (List.mem_cons_of_mem c hd)
    cases hol : c.originalLine with
    | none => rw [hol] at hc; simp at hc
    | some li =>
      have hck : checkFails lines c =
          (decide (li < lines.length) &&
            (!(V2.commentTextOf c).isEmpty &&
              !(jsIncludes (lines.getD li []) (V2.commentTextOf c)))) := by
        unfold checkFails
        rw [hol]
      by_cases hlen : lines.length ≤ li
      · have hfail : checkFails lines c = false := by
          rw [hck, decide_eq_false (Nat.not_lt.mpr hlen), Bool.false_and]
        simp only [V2.detectLoop, hol]
        rw [if_pos hlen, ih hrest, List.any_cons, hfail, Bool.false_or]
      · by_cases hcond : (!(V2.commentTextOf c).isEmpty &&
            !(jsIncludes (lines.getD li []) (V2.commentTextOf c))) = true
        · have hfail : checkFails lines c = true := by
            rw [hck, decide_eq_true (Nat.lt_of_not_le hlen), Bool.true_and, hcond]
          simp only [V2.detectLoop, hol]
          rw [if_neg hlen, if_pos hcond, List.any_cons, hfail, Bool.true_or]
          rfl
        · have hfail : checkFails lines c = false := by
            rw [hck, Bool.eq_false_iff] at *
            intro hcx
            rw [Bool.and_eq_true] at hcx
            exact hcond hcx.2
          simp only [V2.detectLoop, hol]
          rw [if_neg hlen, if_neg hcond, ih hrest, List.any_cons, hfail, Bool.false_or]

/-- Counterexample for C7: a persisted set of three records of which
exactly one fails its presence check.  The implementation reports Clean
(`false`), while "most of the sampled checks fail" is false (1 of 3), so
the claimed rule would report Commented. -/
theorem c7_counterexample :
    V2.detectInitialMode pyMarkers Fix.detText (some Fix.detRecs) = false
    ∧ ¬ mostChecksFail (splitNl Fix.detText) Fix.detRecs := by
  constructor
  · decide
  · unfold mostChecksFail
    decide

/-- Claim C7 (amended): with a persisted set whose sample records all
carry an original line, mode detection returns Clean iff at least one
sampled check fails (the first failure short-circuits, no majority is
computed); with no persisted set, it returns Commented iff the
Classifier finds a comment line anywhere in the file. -/
theorem c7_detect_initial_mode :
    (∀ (markers : List Marker) (text : List Char) (comments : List Comment),
      (comments.filter (fun c => !c.alwaysShow)).isEmpty = false →
      (∀ c ∈ sampleOf comments, c.originalLine.isSome = true) →
      (V2.detectInitialMode markers text (some comments) = false ↔
        ∃ c ∈ sampleOf comments, checkFails (splitNl text) c = true))
    ∧ (∀ (markers : List Marker) (text : List Char),
      V2.detectInitialMode markers text none = true ↔
        ∃ l ∈ splitNl text, trim l ≠ [] ∧ isCommentLine markers l = true) := by
  constructor
  · intro markers text comments h1 h2
    simp only [V2.detectInitialMode]
    rw [if_neg (by simp [h1])]
    rw [show List.take (10 ⊓ (List.filter (fun c => !c.alwaysShow) comments).length)
        (List.filter (fun c => !c.alwaysShow) comments) = sampleOf comments from rfl]
    rw [detectLoop_ok (splitNl text) (sampleOf comments) h2]
    show (!(sampleOf comments).any (checkFails (splitNl text))) = false ↔ _
    rw [Bool.not_eq_false']
    rw [List.any_eq_true]
  · intro markers text
    simp only [V2.detectInitialMode, V2.fileHasComments]
    rw [List.any_eq_true]
    constructor
    · rintro ⟨l, hl, hp⟩
      rw [Bool.and_eq_true] at hp
      exact ⟨l, hl, by simpa using hp.1, hp.2⟩
    · rintro ⟨l, hl, h1, h2⟩
      exact ⟨l, hl, by simp [h2]; simpa using h1⟩

/-- Witness for C7: on the concrete three-record set, the theorem turns
the implementation's Clean verdict into the failing sampled check. -/
theorem c7_witness :
    ∃ c ∈ sampleOf Fix.detRecs, checkFails (splitNl Fix.detText) c = true :=
  (c7_detect_initial_mode.1 pyMarkers Fix.detText Fix.detRecs (by decide) (by decide)).mp
    (by decide)

end VCM

namespace VCM

/-- Claim C2: during injection of a block record with several anchor
candidates, the candidates still available are scored by context match
(`contextScore`: 10 points per matching previous/next fingerprint) and
the chosen index is a highest-scoring candidate with the lowest index as
tie-break; and on the two-identical-code-lines scenario of the spec, the
round trip places each comment above its correct occurrence (hence never
both on the same one). -/
theorem c2_anchor_disambiguation :
    (∀ (lines : List Line) (c : Comment) (cands used : List Nat),
      cands.length ≠ 1 →
      2 ≤ (cands.filter (fun i => !used.contains i)).length →
      V1.findBestMatch lines c cands used ∈ cands.filter (fun i => !used.contains i)
      ∧ ∀ j ∈ cands.filter (fun i => !used.contains i),
          V1.contextScore lines c j < V1.contextScore lines c (V1.findBestMatch lines c cands used)
          ∨ (V1.contextScore lines c j = V1.contextScore lines c (V1.findBestMatch lines c cands used)
             ∧ V1.findBestMatch lines c cands used ≤ j))
    ∧ V1.injectComments (V1.stripComments pyMarkers Fix.c2Text)
        (V1.extractComments pyMarkers Fix.c2Text) = Fix.c2Text := by
  constructor
  · intro lines c cands used hlen1 hlen2
    have hne : (cands.filter (fun i => !used.contains i)).isEmpty = false := by
      cases hav : cands.filter (fun i => !used.contains i) with
      | nil => rw [hav] at hlen2; simp at hlen2
      | cons a t => simp
    have hlen2' : (cands.filter (fun i => !used.contains i)).length ≠ 1 := by
      intro h
      rw [h] at hlen2
      exact absurd hlen2 (by decide)
    have hres : V1.findBestMatch lines c cands used =
        ((List.insertionSort V1.scoreLE
          ((cands.filter (fun i => !used.contains i)).map
            (fun idx => (idx, V1.contextScore lines c idx)))).headD (0, 0)).1 := by
      unfold V1.findBestMatch
      rw [if_neg hlen1]
      simp only [hne, Bool.false_eq_true, if_false]
      rw [if_neg hlen2']
    set avail := cands.filter (fun i => !used.contains i) with havail
    set scores := avail.map (fun idx => (idx, V1.contextScore lines c idx)) with hscores
    have hperm := List.perm_insertionSort V1.scoreLE scores
    have hsorted := List.sorted_insertionSort V1.scoreLE scores
    cases hs : List.insertionSort V1.scoreLE scores with
    | nil =>
      exfalso
      have hl := hperm.length_eq
      rw [hs] at hl
      have : avail.length = 0 := by
        rw [hscores] at hl
        simpa using hl.symm
      omega
    | cons s t =>
      rw [hs] at hperm hsorted
      have hshead : V1.findBestMatch lines c cands used = s.1 := by
        rw [hres, hs]
        rfl
      have hsmem : s ∈ scores := hperm.mem_iff.mp (List.mem_cons_self s t)
      obtain ⟨si, hsi, hseq⟩ := List.mem_map.mp (hscores ▸ hsmem)
      have hs1 : s.1 = si := by rw [← hseq]
      have hs2 : s.2 = V1.contextScore lines c si := by rw [← hseq]
      constructor
      · rw [hshead, hs1]
        exact hsi
      · intro j hj
        have hjmem : (j, V1.contextScore lines c j) ∈ scores := by
          rw [hscores]
          exact List.mem_map.mpr ⟨j, hj, rfl⟩
        rcases List.mem_cons.mp (hperm.mem_iff.mpr hjmem) with hjs | hjt
        · right
          have hj1 : s.1 = j := by rw [← hjs]
          refine ⟨?_, ?_⟩
          · rw [hshead, hj1]
          · rw [hshead, hj1]
        · have hrel := List.rel_of_sorted_cons hsorted _ hjt
          unfold V1.scoreLE at hrel
          rcases hrel with h1 | ⟨h1, h2⟩
          · left
            rw [hshead, hs1, ← hs2]
            exact h1
          · right
            refine ⟨?_, ?_⟩
            · rw [hshead, hs1, ← hs2]
              exact h1
            · rw [hshead]
              exact h2
  · decide

/-- Witness for C2: on the clean text of the scenario, the first block
record has the two candidates 1 and 3 and the scoring picks line 1. -/
theorem c2_witness :
    V1.findBestMatch (splitNl Fix.c2Clean) Fix.c2Block1 [1, 3] [] ∈
      ([1, 3].filter (fun i => !([] : List Nat).contains i))
    ∧ V1.findBestMatch (splitNl Fix.c2Clean) Fix.c2Block1 [1, 3] [] = 1 :=
  ⟨(c2_anchor_disambiguation.1 (splitNl Fix.c2Clean) Fix.c2Block1 [1, 3] []
      (by decide) (by decide)).1,
   by decide⟩

end VCM

namespace VCM

theorem rebuildLoop_enumFrom (bmap imap : List (Nat × List Comment)) :
    ∀ (lines : List Line) (i : Nat),
      V1.rebuildLoop bmap imap i lines =
        (List.enumFrom i lines).flatMap (fun p =>
          ((mapLookup bmap p.1).getD []).flatMap V1.blockRenderLines ++
          [p.2 ++
            (match mapLookup imap p.1 with
             | some (inl :: _) => V1.inlineSuffix inl
             | _ => [])]) := by
  intro lines
  induction lines with
  | nil => intro i; rfl
  | cons l rest ih =>
    intro i
    show (((mapLookup bmap i).getD []).flatMap V1.blockRenderLines ++
        ((match mapLookup imap i with
          | some (inl :: _) => l ++ V1.inlineSuffix inl
          | _ => l) :: V1.rebuildLoop bmap imap (i + 1) rest)) = _
    rw [List.enumFrom_cons, List.flatMap_cons, ih (i + 1)]
    have hline : (match mapLookup imap i with
        | some (inl :: _) => l ++ V1.inlineSuffix inl
        | _ => l) = l ++
          (match mapLookup imap i with
           | some (inl :: _) => V1.inlineSuffix inl
           | _ => []) := by
      cases h : mapLookup imap i with
      | none => simp
      | some v =>
        cases v with
        | nil => simp
        | cons a t => simp
    rw [hline]
    simp [List.append_assoc]

/-- Claim C10: the injected output consists of, for each clean line in
order, some inserted comment lines followed by that clean line emitted
verbatim except for an optional appended inline suffix — no clean line
is deleted, duplicated, reordered or otherwise rewritten. -/
theorem c10_inject_line_preservation :
    ∀ (cleanText : List Char) (records : List Comment),
      ∃ (ins : Nat → List Line) (suf : Nat → Line),
        V1.injectComments cleanText records =
          joinNl ((List.enumFrom 0 (splitNl cleanText)).flatMap
            (fun p => ins p.1 ++ [p.2 ++ suf p.1])) := by
  intro cleanText records
  refine ⟨fun i => ((mapLookup
      (V1.buildBlockMaps (splitNl cleanText) (V1.buildHashIndices 0 (splitNl cleanText) [])
        (V1.sortBlocks (records.filter (fun c => c.ctype = CKind.block))) [] []).1 i).getD
      []).flatMap V1.blockRenderLines,
    fun i =>
      (match mapLookup
          (V1.buildInlineMap (splitNl cleanText) (V1.buildHashIndices 0 (splitNl cleanText) [])
            (V1.buildBlockMaps (splitNl cleanText) (V1.buildHashIndices 0 (splitNl cleanText) [])
              (V1.sortBlocks (records.filter (fun c => c.ctype = CKind.block))) [] []).2
            (V1.sortInlines (records.filter (fun c => c.ctype = CKind.inline))) []) i with
       | some (inl :: _) => V1.inlineSuffix inl
       | _ => []), ?_⟩
  simp only [V1.injectComments]
  rw [rebuildLoop_enumFrom]

end VCM

namespace VCM

theorem orderedInsert_eq_cons {α : Type} (r : α → α → Prop) [DecidableRel r] (a : α)
    (L : List α) (h : ∀ x ∈ L, r a x) : List.orderedInsert r a L = a :: L := by
  cases L with
  | nil => rfl
  | cons b t =>
    rw [show List.orderedInsert r a (b :: t)
        = if r a b then a :: b :: t else b :: List.orderedInsert r a t from rfl,
      if_pos (h b (List.mem_cons_self b t))]

theorem filter_orderedInsert {α : Type} (r : α → α → Prop) [DecidableRel r] (p : α → Bool)
    (htrans : ∀ a b c, r a b → r b c → r a c) :
    ∀ (a : α) (L : List α), List.Sorted r L →
      List.filter p (List.orderedInsert r a L) =
        if p a then List.orderedInsert r a (List.filter p L) else List.filter p L := by
  intro a L
  induction L with
  | nil =>
    intro _
    by_cases hpa : p a
    · rw [if_pos hpa]
      show List.filter p [a] = List.orderedInsert r a []
      rw [List.filter_cons_of_pos (by simpa using hpa)]
      rfl
    · rw [if_neg hpa]
      show List.filter p [a] = []
      rw [List.filter_cons_of_neg (by simpa using hpa)]
      rfl
  | cons b t ih =>
    intro hsort
    have hsort' : List.Sorted r t := hsort.of_cons
    by_cases hab : r a b
    · rw [show List.orderedInsert r a (b :: t)
          = if r a b then a :: b :: t else b :: List.orderedInsert r a t from rfl,
        if_pos hab]
      by_cases hpa : p a
      · rw [if_pos hpa, List.filter_cons_of_pos (by simpa using hpa)]
        by_cases hpb : p b
        · rw [List.filter_cons_of_pos (by simpa using hpb)]
          rw [show List.orderedInsert r a (b :: List.filter p t)
              = if r a b then a :: b :: List.filter p t
                else b :: List.orderedInsert r a (List.filter p t) from rfl,
            if_pos hab]
        · rw [List.filter_cons_of_neg (by simpa using hpb)]
          rw [orderedInsert_eq_cons r a _ (fun x hx =>
            htrans a b x hab (List.rel_of_sorted_cons hsort x (List.mem_of_mem_filter hx)))]
      · rw [if_neg hpa]
        rw [List.filter_cons_of_neg (by simpa using hpa)]
    · rw [show List.orderedInsert r a (b :: t)
          = if r a b then a :: b :: t else b :: List.orderedInsert r a t from rfl,
        if_neg hab]
      by_cases hpb : p b
      · rw [List.filter_cons_of_pos (by simpa using hpb),
          List.filter_cons_of_pos (by simpa using hpb), ih hsort']
        by_cases hpa : p a
        · rw [if_pos hpa, if_pos hpa]
          rw [show List.orderedInsert r a (b :: List.filter p t)
              = if r a b then a :: b :: List.filter p t
                else b :: List.orderedInsert r a (List.filter p t) from rfl,
            if_neg hab]
        · rw [if_neg hpa, if_neg hpa]
      · rw [List.filter_cons_of_neg (by simpa using hpb),
          List.filter_cons_of_neg (by simpa using hpb), ih hsort']

theorem insertionSort_filter {α : Type} (r : α → α → Prop) [DecidableRel r] (p : α → Bool)
    (htrans : ∀ a b c, r a b → r b c → r a c) (htot : ∀ a b, r a b ∨ r b a) :
    ∀ L : List α, List.filter p (List.insertionSort r L) =
      List.insertionSort r (List.filter p L) := by
  haveI : IsTotal α r := ⟨htot⟩
  haveI : IsTrans α r := ⟨htrans⟩
  intro L
  induction L with
  | nil => rfl
  | cons a t ih =>
    rw [show List.insertionSort r (a :: t)
        = List.orderedInsert r a (List.insertionSort r t) from rfl]
    rw [filter_orderedInsert r p htrans a _ (List.sorted_insertionSort r t), ih]
    by_cases hpa : p a
    · rw [if_pos hpa, List.filter_cons_of_pos (by simpa using hpa)]
      rfl
    · rw [if_neg hpa, List.filter_cons_of_neg (by simpa using hpa)]

theorem buildBlockMaps_filter (lines : List Line) (hmap : List (Line × List Nat)) :
    ∀ (rs : List Comment) (bmap : List (Nat × List Comment)) (used : List Nat),
      V1.buildBlockMaps lines hmap rs bmap used =
        V1.buildBlockMaps lines hmap (rs.filter (anchorResolvable hmap)) bmap used := by
  intro rs
  induction rs with
  | nil => intro bmap used; rfl
  | cons b t ih =>
    intro bmap used
    rw [List.filter_cons]
    cases hl : mapLookup hmap b.anchor with
    | none =>
      have hres : anchorResolvable hmap b = false := by
        unfold anchorResolvable
        rw [hl]
      rw [hres]
      simp only [V1.buildBlockMaps, hl, if_false, Bool.false_eq_true]
      exact ih bmap used
    | some idx =>
      cases idx with
      | nil =>
        have hres : anchorResolvable hmap b = false := by
          unfold anchorResolvable
          rw [hl]
          rfl
        rw [hres]
        simp only [V1.buildBlockMaps, hl, List.isEmpty_nil, if_true, if_false, Bool.false_eq_true]
        exact ih bmap used
      | cons i0 irest =>
        have hres : anchorResolvable hmap b = true := by
          unfold anchorResolvable
          rw [hl]
          rfl
        rw [hres]
        simp only [V1.buildBlockMaps, hl, List.isEmpty_cons, if_true, if_false, Bool.false_eq_true]
        exact ih _ _

theorem buildInlineMap_filter (lines : List Line) (hmap : List (Line × List Nat))
    (used : List Nat) :
    ∀ (rs : List Comment) (imap : List (Nat × List Comment)),
      V1.buildInlineMap lines hmap used rs imap =
        V1.buildInlineMap lines hmap used (rs.filter (anchorResolvable hmap)) imap := by
  intro rs
  induction rs with
  | nil => intro imap; rfl
  | cons b t ih =>
    intro imap
    rw [List.filter_cons]
    cases hl : mapLookup hmap b.anchor with
    | none =>
      have hres : anchorResolvable hmap b = false := by
        unfold anchorResolvable
        rw [hl]
      rw [hres]
      simp only [V1.buildInlineMap, hl, if_false, Bool.false_eq_true]
      exact ih imap
    | some idx =>
      cases idx with
      | nil =>
        have hres : anchorResolvable hmap b = false := by
          unfold anchorResolvable
          rw [hl]
          rfl
        rw [hres]
        simp only [V1.buildInlineMap, hl, List.isEmpty_nil, if_true, if_false, Bool.false_eq_true]
        exact ih imap
      | cons i0 irest =>
        have hres : anchorResolvable hmap b = true := by
          unfold anchorResolvable
          rw [hl]
          rfl
        rw [hres]
        simp only [V1.buildInlineMap, hl, List.isEmpty_cons, if_true, if_false, Bool.false_eq_true]
        exact ih _

end VCM

namespace VCM

/-- Claim C6: a record whose anchor fingerprint matches no line of the
clean text is silently skipped (the function is total — no exception),
and the output is exactly the output on the record set with all such
records removed: every other record and every clean line is emitted as
it would have been without the dropped records. -/
theorem c6_unresolved_anchor_dropped :
    (∀ (cleanText : List Char) (records : List Comment),
      V1.injectComments cleanText records =
        V1.injectComments cleanText
          (records.filter (anchorResolvable (V1.buildHashIndices 0 (splitNl cleanText) []))))
    ∧ V1.injectComments "x = 1".data [Fix.orphanRec] = "x = 1".data := by
  constructor
  · intro cleanText records
    have htransB : ∀ a b c : Comment, V1.blockKey a ≤ V1.blockKey b →
        V1.blockKey b ≤ V1.blockKey c → V1.blockKey a ≤ V1.blockKey c :=
      fun _ _ _ h1 h2 => Nat.le_trans h1 h2
    have htotB : ∀ a b : Comment, V1.blockKey a ≤ V1.blockKey b ∨ V1.blockKey b ≤ V1.blockKey a :=
      fun a b => Nat.le_total _ _
    have htransI : ∀ a b c : Comment, V1.inlineKey a ≤ V1.inlineKey b →
        V1.inlineKey b ≤ V1.inlineKey c → V1.inlineKey a ≤ V1.inlineKey c :=
      fun _ _ _ h1 h2 => Nat.le_trans h1 h2
    have htotI : ∀ a b : Comment, V1.inlineKey a ≤ V1.inlineKey b ∨ V1.inlineKey b ≤ V1.inlineKey a :=
      fun a b => Nat.le_total _ _
    have hB : V1.buildBlockMaps (splitNl cleanText)
        (V1.buildHashIndices 0 (splitNl cleanText) [])
        (V1.sortBlocks (records.filter (fun c => decide (c.ctype = CKind.block)))) [] [] =
        V1.buildBlockMaps (splitNl cleanText)
          (V1.buildHashIndices 0 (splitNl cleanText) [])
          (V1.sortBlocks
            ((records.filter
              (anchorResolvable (V1.buildHashIndices 0 (splitNl cleanText) []))).filter
                (fun c => decide (c.ctype = CKind.block)))) [] [] := by
      rw [buildBlockMaps_filter]
      unfold V1.sortBlocks
      rw [insertionSort_filter _ _ htransB htotB]
      rw [List.filter_comm]
    have hI : ∀ used : List Nat,
        V1.buildInlineMap (splitNl cleanText)
          (V1.buildHashIndices 0 (splitNl cleanText) []) used
          (V1.sortInlines (records.filter (fun c => decide (c.ctype = CKind.inline)))) [] =
        V1.buildInlineMap (splitNl cleanText)
          (V1.buildHashIndices 0 (splitNl cleanText) []) used
          (V1.sortInlines
            ((records.filter
              (anchorResolvable (V1.buildHashIndices 0 (splitNl cleanText) []))).filter
                (fun c => decide (c.ctype = CKind.inline)))) [] := by
      intro used
      rw [buildInlineMap_filter]
      unfold V1.sortInlines
      rw [insertionSort_filter _ _ htransI htotI]
      rw [List.filter_comm]
    simp only [V1.injectComments]
    rw [hB, hI]
  · decide

end VCM

namespace VCM

theorem findCommentStartGo_cons (markers : List Marker) (st : ScanState) (prev : Option Char)
    (i : Nat) (c : Char) (rest : List Char) :
    findCommentStartGo markers st prev i (c :: rest) =
      if st.escaped then
        findCommentStartGo markers { st with escaped := false } (some c) (i + 1) rest
      else if c = '\\' then
        findCommentStartGo markers { st with escaped := true } (some c) (i + 1) rest
      else
        match st.stringChar with
        | none =>
          if isQuote c then
            findCommentStartGo markers { stringChar := some c, escaped := false } (some c)
              (i + 1) rest
          else if markerHitAt markers prev c rest then some (i - 1)
          else findCommentStartGo markers st (some c) (i + 1) rest
        | some q =>
          if c = q then
            findCommentStartGo markers { stringChar := none, escaped := false } (some c)
              (i + 1) rest
          else findCommentStartGo markers st (some c) (i + 1) rest := rfl

theorem findCommentStartGo_none (markers : List Marker) (line : Line)
    (h : ∀ i, i < line.length → wsMarkerAt markers line i = true →
      (stringStateAt line i).stringChar ≠ none) :
    ∀ (cs : List Char) (i : Nat), cs = line.drop i →
      findCommentStartGo markers (stringStateAt line i) (line.take i).getLast? i cs = none := by
  intro cs
  induction cs with
  | nil => intro i _; rfl
  | cons c rest ih =>
    intro i hcs
    have hlt : i < line.length := by
      have hlen : line.length - i = rest.length + 1 := by
        rw [← List.length_drop, ← hcs]
        rfl
      omega
    have hdrop := List.drop_eq_getElem_cons hlt
    rw [hdrop] at hcs
    have hc0 := (List.cons_eq_cons.mp hcs).1
    have hrest := (List.cons_eq_cons.mp hcs).2
    have htakeEq : line.take (i + 1) = line.take i ++ [c] := by
      rw [List.take_succ, List.getElem?_eq_getElem hlt, ← hc0]
      rfl
    have htake : (line.take (i + 1)).getLast? = some c := by
      rw [htakeEq]
      exact List.getLast?_concat _
    have hstep : stringStateAt line (i + 1) = scanStep (stringStateAt line i) c := by
      unfold stringStateAt
      rw [htakeEq, List.foldl_append]
      rfl
    have hmark : markerHitAt markers (line.take i).getLast? c rest = wsMarkerAt markers line i := by
      unfold wsMarkerAt
      rw [List.getD_eq_getElem line ' ' hlt, ← hc0, hrest]
    rw [findCommentStartGo_cons]
    by_cases hesc : (stringStateAt line i).escaped
    · rw [if_pos hesc]
      have hst : ({ stringStateAt line i with escaped := false } : ScanState)
          = stringStateAt line (i + 1) := by
        rw [hstep]
        unfold scanStep
        rw [if_pos hesc]
      rw [hst, ← htake]
      exact ih (i + 1) hrest
    · rw [if_neg hesc]
      by_cases hbs : c = '\\'
      · rw [if_pos hbs]
        have hst : ({ stringStateAt line i with escaped := true } : ScanState)
            = stringStateAt line (i + 1) := by
          rw [hstep]
          unfold scanStep
          rw [if_neg hesc, if_pos hbs]
        rw [hst, ← htake]
        exact ih (i + 1) hrest
      · rw [if_neg hbs]
        cases hsc : (stringStateAt line i).stringChar with
        | none =>
          simp only [hsc]
          by_cases hq : isQuote c
          · rw [if_pos hq]
            have hst : ({ stringChar := some c, escaped := false } : ScanState)
                = stringStateAt line (i + 1) := by
              rw [hstep]
              unfold scanStep
              rw [if_neg hesc, if_neg hbs]
              simp only [hsc]
              rw [if_pos hq]
            rw [hst, ← htake]
            exact ih (i + 1) hrest
          · rw [if_neg hq]
            have hnm : markerHitAt markers (line.take i).getLast? c rest = false := by
              rw [hmark]
              cases hw : wsMarkerAt markers line i with
              | false => rfl
              | true => exact absurd hsc (h i hlt hw)
            rw [hnm]
            rw [if_neg (by simp)]
            have hst : stringStateAt line i = stringStateAt line (i + 1) := by
              rw [hstep]
              unfold scanStep
              rw [if_neg hesc, if_neg hbs]
              simp only [hsc]
              rw [if_neg hq]
            rw [hst, ← htake]
            exact ih (i + 1) hrest
        | some q =>
          simp only [hsc]
          by_cases hcq : c = q
          · rw [if_pos hcq]
            have hst : ({ stringChar := none, escaped := false } : ScanState)
                = stringStateAt line (i + 1) := by
              rw [hstep]
              unfold scanStep
              rw [if_neg hesc, if_neg hbs]
              simp only [hsc]
              rw [if_pos hcq]
            rw [hst, ← htake]
            exact ih (i + 1) hrest
          · rw [if_neg hcq]
            have hst : stringStateAt line i = stringStateAt line (i + 1) := by
              rw [hstep]
              unfold scanStep
              rw [if_neg hesc, if_neg hbs]
              simp only [hsc]
              rw [if_neg hcq]
            rw [hst, ← htake]
            exact ih (i + 1) hrest

theorem inlineIdxGo_none_iff (markers : List Marker) :
    ∀ (cs : List Char) (s : Nat),
      inlineIdxGo markers s cs = none ↔ ∀ i, wsRunMarker markers (cs.drop i) = false := by
  intro cs
  induction cs with
  | nil =>
    intro s
    constructor
    · intro _ i
      cases i with
      | zero => rfl
      | succ j => rfl
    · intro _
      rfl
  | cons c rest ih =>
    intro s
    by_cases hw : wsRunMarker markers (c :: rest) = true
    · constructor
      · intro hcontra
        exfalso
        unfold inlineIdxGo at hcontra
        rw [if_pos hw] at hcontra
        exact Option.some_ne_none s hcontra
      · intro hall
        have h0 := hall 0
        rw [List.drop_zero, hw] at h0
        exact absurd h0 (by decide)
    · have hw' : wsRunMarker markers (c :: rest) = false := by
        cases hx : wsRunMarker markers (c :: rest) with
        | false => rfl
        | true => exact absurd hx hw
      constructor
      · intro hgo i
        cases i with
        | zero => exact hw'
        | succ j =>
          have : inlineIdxGo markers (s + 1) rest = none := by
            unfold inlineIdxGo at hgo
            rw [if_neg hw] at hgo
            exact hgo
          exact ((ih (s + 1)).mp this) j
      · intro hall
        unfold inlineIdxGo
        rw [if_neg hw]
        exact (ih (s + 1)).mpr (fun i => hall (i + 1))

theorem markerPrefix_nil_eq_false (markers : List Marker) (hm : ∀ m ∈ markers, m ≠ []) :
    markerPrefix markers [] = false := by
  unfold markerPrefix
  rw [List.any_eq_false]
  intro m hmem
  cases hmcase : m with
  | nil => exact absurd hmcase (hm m hmem)
  | cons a t => simp [List.isPrefixOf]

theorem wsRunMarker_iff (markers : List Marker) (hm : ∀ m ∈ markers, m ≠ []) :
    ∀ cs : List Char, wsRunMarker markers cs = true ↔
      ∃ n, (∀ x ∈ cs.take (n + 1), isWs x = true)
        ∧ markerPrefix markers (cs.drop (n + 1)) = true := by
  intro cs
  induction cs with
  | nil =>
    constructor
    · intro hcontra
      exact absurd hcontra (by rw [show wsRunMarker markers [] = false from rfl]; simp)
    · rintro ⟨n, _, h2⟩
      rw [show ([] : List Char).drop (n + 1) = [] from by simp] at h2
      exact absurd h2 (by rw [markerPrefix_nil_eq_false markers hm]; simp)
  | cons c rest ih =>
    constructor
    · intro hrun
      unfold wsRunMarker at hrun
      rw [Bool.and_eq_true, Bool.or_eq_true] at hrun
      obtain ⟨hws, hcase⟩ := hrun
      rcases hcase with hmp | hrec
      · refine ⟨0, ?_, ?_⟩
        · intro x hx
          rw [show (c :: rest).take 1 = [c] from rfl] at hx
          rw [List.mem_singleton.mp hx]
          exact hws
        · exact hmp
      · obtain ⟨n, h1, h2⟩ := ih.mp hrec
        refine ⟨n + 1, ?_, ?_⟩
        · intro x hx
          rw [show (c :: rest).take (n + 1 + 1) = c :: rest.take (n + 1) from rfl] at hx
          rcases List.mem_cons.mp hx with hx | hx
          · rw [hx]; exact hws
          · exact h1 x hx
        · exact h2
    · rintro ⟨n, h1, h2⟩
      unfold wsRunMarker
      rw [Bool.and_eq_true, Bool.or_eq_true]
      have hcmem : c ∈ (c :: rest).take (n + 1) := by
        rw [show (c :: rest).take (n + 1) = c :: rest.take n from rfl]
        exact List.mem_cons_self c _
      have hws : isWs c = true := h1 c hcmem
      refine ⟨hws, ?_⟩
      cases n with
      | zero => exact Or.inl h2
      | succ n' =>
        right
        refine ih.mpr ⟨n', ?_, ?_⟩
        · intro x hx
          have hx2 : x ∈ (c :: rest).take (n' + 1 + 1) := by
            rw [show (c :: rest).take (n' + 1 + 1) = c :: rest.take (n' + 1) from rfl]
            exact List.mem_cons_of_mem c hx
          exact h1 x hx2
        · exact h2

/-- Counterexample for C8: on a line whose only marker occurrences are
inside a double-quoted string, the string-aware strip scanner reports no
comment, but the extraction regex — which the claim also covers — does
report one: it is not string-aware. -/
theorem c8_counterexample :
    (∀ i, i < Fix.stringLine.length → wsMarkerAt pyMarkers Fix.stringLine i = true →
      insideStringAt Fix.stringLine i)
    ∧ findCommentStart pyMarkers Fix.stringLine = none
    ∧ extractInlineIdx pyMarkers Fix.stringLine ≠ none := by
  refine ⟨by decide, by decide, by decide⟩

/-- Claim C8 (amended): the strip scanner `findCommentStart` reports no
comment start when every whitespace-preceded marker occurrence lies
inside a string literal (escape sequences honoured); the extraction
regex enforces only the whitespace condition — it matches iff the line
contains a whitespace run immediately followed by a marker, regardless
of strings; and for the two-character marker `//` a single `/` (or a
glued marker) is never treated as a comment start by either scan. -/
theorem c8_inline_comment_classification :
    (∀ (markers : List Marker) (line : Line),
      (∀ i, i < line.length → wsMarkerAt markers line i = true → insideStringAt line i) →
      findCommentStart markers line = none)
    ∧ (∀ (markers : List Marker) (line : Line),
        extractInlineIdx markers line = none ↔
          ∀ i, wsRunMarker markers (line.drop i) = false)
    ∧ (∀ (markers : List Marker) (cs : List Char), (∀ m ∈ markers, m ≠ []) →
        (wsRunMarker markers cs = true ↔
          ∃ n, (∀ x ∈ cs.take (n + 1), isWs x = true)
            ∧ markerPrefix markers (cs.drop (n + 1)) = true))
    ∧ findCommentStart slashMarkers "a = b / c / d".data = none
    ∧ extractInlineIdx slashMarkers "a = b / c / d".data = none := by
  refine ⟨?_, ?_, ?_, by decide, by decide⟩
  · intro markers line hins
    unfold findCommentStart
    have := findCommentStartGo_none markers line
      (fun i hi hm => hins i hi hm) line 0 rfl
    exact this
  · intro markers line
    exact inlineIdxGo_none_iff markers line 0
  · intro markers cs hm
    exact wsRunMarker_iff markers hm cs

/-- Witness for C8: the string-aware scanner ignores the marker inside a
single-quoted string, and the regex condition is witnessed on a
whitespace-then-marker fragment. -/
theorem c8_witness :
    findCommentStart pyMarkers "s = 'a # b' + 1".data = none
    ∧ wsRunMarker pyMarkers (' ' :: ['#']) = true :=
  ⟨c8_inline_comment_classification.1 pyMarkers "s = 'a # b' + 1".data (by decide),
   (c8_inline_comment_classification.2.2.1 pyMarkers (' ' :: ['#'])
      (by decide)).mpr ⟨0, by decide, by decide⟩⟩

end VCM

namespace VCM.RT

open VCM

/-! Round-trip support lemmas. -/

theorem withPositions_map_text : ∀ (p : Nat) (cmts : List Line),
    (withPositions p cmts).map BlockLine.text = cmts := by
  intro p cmts
  induction cmts generalizing p with
  | nil => rfl
  | cons c rest ih => simp [withPositions, ih]

theorem renderSeg_decomp (seg : Seg) :
    renderSeg seg = blockLinesOf seg ++ [cleanLineOf seg ++ sufOf seg] := by
  cases seg with
  | blankSeg w => simp [renderSeg, blockLinesOf, cleanLineOf, sufOf]
  | codeSeg s suf => cases suf <;> simp [renderSeg, blockLinesOf, cleanLineOf, sufOf]
  | blockSeg cmts s => simp [renderSeg, blockLinesOf, cleanLineOf, sufOf]

theorem bucketAdd_fresh {K V : Type} [DecidableEq K] :
    ∀ (m : List (K × List V)) (k : K) (v : V), mapLookup m k = none →
      bucketAdd m k v = m ++ [(k, [v])] := by
  intro m k v
  induction m with
  | nil => intro _; rfl
  | cons p rest ih =>
    intro h
    obtain ⟨k2, vs⟩ := p
    unfold mapLookup at h
    unfold bucketAdd
    by_cases he : k2 = k
    · rw [if_pos he] at h
      exact absurd h (by simp)
    · rw [if_neg he] at h
      rw [if_neg he, ih h]
      rfl

theorem mapLookup_append_single_none {K V : Type} [DecidableEq K] :
    ∀ (m : List (K × V)) (t a : K) (v : V), mapLookup m t = none → a ≠ t →
      mapLookup (m ++ [(a, v)]) t = none := by
  intro m t a v
  induction m with
  | nil =>
    intro _ hne
    show mapLookup [(a, v)] t = none
    unfold mapLookup
    rw [if_neg hne]
    rfl
  | cons p rest ih =>
    intro h hne
    obtain ⟨k2, v2⟩ := p
    unfold mapLookup at h
    rw [List.cons_append]
    unfold mapLookup
    by_cases he : k2 = t
    · rw [if_pos he] at h
      exact absurd h (by simp)
    · rw [if_neg he] at h
      rw [if_neg he]
      exact ih h hne

theorem findBestMatch_singleton (lines : List Line) (c : Comment) (i : Nat) (used : List Nat) :
    V1.findBestMatch lines c [i] used = i := by
  unfold V1.findBestMatch
  rw [if_pos (show ([i] : List Nat).length = 1 from rfl)]
  rfl

end VCM.RT

namespace VCM.RT

open VCM

theorem withPositions_isEmpty_false (p : Nat) (cmts : List Line) (h : cmts ≠ []) :
    (withPositions p cmts).isEmpty = false := by
  cases cmts with
  | nil => exact absurd rfl h
  | cons c rest => rfl

theorem extractLoop_comments (markers : List Marker) (lines : List Line) :
    ∀ (cmts : List Line), (∀ c ∈ cmts, isCommentLine markers c = true ∧ trim c ≠ []) →
    ∀ (pos : Nat) (tail : List Line) (buffer : List BlockLine),
      V1.extractLoop markers lines pos (cmts ++ tail) buffer =
        V1.extractLoop markers lines (pos + cmts.length) tail (buffer ++ withPositions pos cmts) := by
  intro cmts
  induction cmts with
  | nil =>
    intro _ pos tail buffer
    rw [show withPositions pos [] = [] from rfl, List.append_nil, List.nil_append,
      show (([] : List Line)).length = 0 from rfl, Nat.add_zero]
  | cons c rest ih =>
    intro hc pos tail buffer
    obtain ⟨hcomment, htrim⟩ := hc c (List.mem_cons_self c rest)
    have htrimE : ¬((trim c).isEmpty = true) := by
      cases hx : trim c with
      | nil => exact absurd hx htrim
      | cons a t => simp
    rw [List.cons_append]
    simp only [V1.extractLoop]
    rw [if_neg htrimE, if_pos hcomment]
    have hstep := ih (fun x hx => hc x (List.mem_cons_of_mem c hx)) (pos + 1) tail
      (buffer ++ [{ text := c, originalLine := pos }])
    rw [hstep]
    have harith : pos + ((c :: rest : List Line)).length = pos + 1 + rest.length := by
      rw [List.length_cons]
      omega
    have hbuf : buffer ++ withPositions pos (c :: rest) =
        (buffer ++ [{ text := c, originalLine := pos }]) ++ withPositions (pos + 1) rest := by
      rw [List.append_assoc]
      rfl
    rw [harith, hbuf]

theorem extractLoop_render (markers : List Marker) (lines : List Line) :
    ∀ (segs : List Seg), (∀ seg ∈ segs, WFSeg markers seg) →
    ∀ (pos : Nat),
      V1.extractLoop markers lines pos (render segs) [] =
        (specRecs markers lines pos segs, []) := by
  intro segs
  induction segs with
  | nil => intro _ pos; rfl
  | cons seg rest ih =>
    intro hwf pos
    have hseg := hwf seg (List.mem_cons_self seg rest)
    have hrest := fun x hx => hwf x (List.mem_cons_of_mem seg hx)
    have hrender : render (seg :: rest) = renderSeg seg ++ render rest := by
      simp [render]
    rw [hrender]
    cases seg with
    | blankSeg w =>
      obtain ⟨htrim, _⟩ := hseg
      rw [show renderSeg (Seg.blankSeg w) = [w] from rfl, List.cons_append, List.nil_append]
      simp only [V1.extractLoop]
      rw [if_pos (show (trim w).isEmpty = true from by rw [htrim]; rfl)]
      rw [ih hrest (pos + 1)]
      rfl
    | codeSeg s suf =>
      cases suf with
      | none =>
        obtain ⟨htrim, hcl, _, hinl⟩ := hseg
        rw [show renderSeg (Seg.codeSeg s none) = [s] from by simp [renderSeg],
          List.cons_append, List.nil_append]
        simp only [V1.extractLoop]
        rw [if_neg (show ¬((trim s).isEmpty = true) from by
              cases hx : trim s with
              | nil => exact absurd hx htrim
              | cons a t => simp),
            if_neg (show ¬(isCommentLine markers s = true) from by rw [hcl]; simp)]
        simp only [hinl]
        rw [ih hrest (pos + 1)]
        rfl
      | some suf =>
        obtain ⟨htrim, hcl, hinl, _⟩ := hseg
        have htrim2 : trim (s ++ suf) ≠ [] := trim_append_ne_nil htrim
        rw [show renderSeg (Seg.codeSeg s (some suf)) = [s ++ suf] from by simp [renderSeg],
          List.cons_append, List.nil_append]
        simp only [V1.extractLoop]
        rw [if_neg (show ¬((trim (s ++ suf)).isEmpty = true) from by
              cases hx : trim (s ++ suf) with
              | nil => exact absurd hx htrim2
              | cons a t => simp),
            if_neg (show ¬(isCommentLine markers (s ++ suf) = true) from by rw [hcl]; simp)]
        simp only [hinl]
        rw [List.take_left, List.drop_left]
        have hanchor : hashLine (trimEnd s) = trim s := trim_trimEnd s
        rw [hanchor]
        rw [ih hrest (pos + 1)]
        rfl
    | blockSeg cmts s =>
      obtain ⟨hcne, hcall, htrim, hcl, _, hinl⟩ := hseg
      rw [show renderSeg (Seg.blockSeg cmts s) = cmts ++ [s] from rfl, List.append_assoc,
        List.cons_append, List.nil_append]
      rw [extractLoop_comments markers lines cmts hcall pos (s :: render rest) []]
      rw [List.nil_append]
      simp only [V1.extractLoop]
      rw [if_neg (show ¬((trim s).isEmpty = true) from by
            cases hx : trim s with
            | nil => exact absurd hx htrim
            | cons a t => simp),
          if_neg (show ¬(isCommentLine markers s = true) from by rw [hcl]; simp)]
      simp only [hinl]
      rw [if_neg (show ¬((withPositions pos cmts).isEmpty = true) from by
            rw [withPositions_isEmpty_false pos cmts hcne]; simp)]
      rw [show hashLine s = trim s from rfl]
      rw [ih hrest (pos + cmts.length + 1)]
      rfl

end VCM.RT

namespace VCM.RT

open VCM

theorem render_ne_nil (segs : List Seg) (h : segs ≠ []) : render segs ≠ [] := by
  cases segs with
  | nil => exact absurd rfl h
  | cons seg rest =>
    rw [show render (seg :: rest) = renderSeg seg ++ render rest from by simp [render]]
    cases seg with
    | blankSeg w => simp [renderSeg]
    | codeSeg s suf => simp [renderSeg]
    | blockSeg cmts s => simp [renderSeg]

theorem cleanRender_ne_nil (segs : List Seg) (h : segs ≠ []) : cleanRender segs ≠ [] := by
  cases segs with
  | nil => exact absurd rfl h
  | cons seg rest => simp [cleanRender]

theorem cleanLine_chars (segs : List Seg)
    (h : ∀ l ∈ render segs, ∀ c ∈ l, c ≠ '\n') :
    ∀ l ∈ cleanRender segs, ∀ c ∈ l, c ≠ '\n' := by
  induction segs with
  | nil => intro l hl; simp [cleanRender] at hl
  | cons seg rest ih =>
    have hrender : render (seg :: rest) = renderSeg seg ++ render rest := by simp [render]
    have hrest : ∀ l ∈ render rest, ∀ c ∈ l, c ≠ '\n' := by
      intro l hl
      exact h l (by rw [hrender]; exact List.mem_append_right _ hl)
    intro l hl
    rw [show cleanRender (seg :: rest) = cleanLineOf seg :: cleanRender rest from rfl] at hl
    rcases List.mem_cons.mp hl with hl | hl
    · subst hl
      intro ch hch
      cases seg with
      | blankSeg w =>
        exact h w (by rw [hrender]; exact List.mem_append_left _ (List.mem_singleton_self w)) ch hch
      | codeSeg s suf =>
        refine h (s ++ suf.getD []) ?_ ch (List.mem_append_left _ hch)
        rw [hrender]
        exact List.mem_append_left _ (List.mem_singleton_self _)
      | blockSeg cmts s =>
        refine h s ?_ ch hch
        rw [hrender]
        exact List.mem_append_left _
          (List.mem_append_right _ (List.mem_singleton_self s))
    · exact ih hrest l hl

theorem extract_render (markers : List Marker) (segs : List Seg)
    (hwf : ∀ seg ∈ segs, WFSeg markers seg) (hne : segs ≠ [])
    (hnl : ∀ l ∈ render segs, ∀ c ∈ l, c ≠ '\n') :
    V1.extractComments markers (joinNl (render segs)) =
      specRecs markers (render segs) 0 segs := by
  have hsplit : splitNl (joinNl (render segs)) = render segs :=
    splitNl_joinNl (render segs) (render_ne_nil segs hne) hnl
  simp only [V1.extractComments]
  rw [hsplit]
  rw [extractLoop_render markers (render segs) segs hwf 0]
  rfl

theorem strip_render (markers : List Marker) :
    ∀ (segs : List Seg), (∀ seg ∈ segs, WFSeg markers seg) →
      ((render segs).filter
          (fun line => (trim line).isEmpty || !isCommentLine markers line)).map
        (V1.stripLine markers) = cleanRender segs := by
  intro segs
  induction segs with
  | nil => intro _; rfl
  | cons seg rest ih =>
    intro hwf
    have hseg := hwf seg (List.mem_cons_self seg rest)
    have hrest := fun x hx => hwf x (List.mem_cons_of_mem seg hx)
    rw [show render (seg :: rest) = renderSeg seg ++ render rest from by simp [render],
      List.filter_append, List.map_append, ih hrest]
    rw [show cleanRender (seg :: rest) = cleanLineOf seg :: cleanRender rest from rfl]
    cases seg with
    | blankSeg w =>
      obtain ⟨htrim, hfcs⟩ := hseg
      have hone : (List.filter
          (fun line => (trim line).isEmpty || !isCommentLine markers line)
          (renderSeg (Seg.blankSeg w))).map (V1.stripLine markers) = [w] := by
        rw [show renderSeg (Seg.blankSeg w) = [w] from rfl]
        rw [show List.filter (fun line => (trim line).isEmpty || !isCommentLine markers line)
          [w] = [w] from by simp [List.filter_cons, htrim]]
        simp [V1.stripLine, hfcs]
      rw [hone]
      rfl
    | codeSeg s suf =>
      cases suf with
      | none =>
        obtain ⟨htrim, hcl, hfcs, _⟩ := hseg
        have hone : (List.filter
            (fun line => (trim line).isEmpty || !isCommentLine markers line)
            (renderSeg (Seg.codeSeg s none))).map (V1.stripLine markers) = [s] := by
          rw [show renderSeg (Seg.codeSeg s none) = [s] from by simp [renderSeg]]
          rw [show List.filter (fun line => (trim line).isEmpty || !isCommentLine markers line)
            [s] = [s] from by simp [List.filter_cons, hcl]]
          simp [V1.stripLine, hfcs]
        rw [hone]
        rfl
      | some suf =>
        obtain ⟨htrim, hcl, _, hstrip⟩ := hseg
        have hone : (List.filter
            (fun line => (trim line).isEmpty || !isCommentLine markers line)
            (renderSeg (Seg.codeSeg s (some suf)))).map (V1.stripLine markers) = [s] := by
          rw [show renderSeg (Seg.codeSeg s (some suf)) = [s ++ suf] from by simp [renderSeg]]
          rw [show List.filter (fun line => (trim line).isEmpty || !isCommentLine markers line)
            [s ++ suf] = [s ++ suf] from by simp [List.filter_cons, hcl]]
          simp [hstrip]
        rw [hone]
        rfl
    | blockSeg cmts s =>
      obtain ⟨hcne, hcall, htrim, hcl, hfcs, _⟩ := hseg
      have hone : (List.filter
          (fun line => (trim line).isEmpty || !isCommentLine markers line)
          (renderSeg (Seg.blockSeg cmts s))).map (V1.stripLine markers) = [s] := by
        rw [show renderSeg (Seg.blockSeg cmts s) = cmts ++ [s] from rfl, List.filter_append]
        have hcmts : List.filter (fun line => (trim line).isEmpty || !isCommentLine markers line)
            cmts = [] := by
          rw [List.filter_eq_nil_iff]
          intro x hx
          obtain ⟨hxc, hxt⟩ := hcall x hx
          have hxe : (trim x).isEmpty = false := by
            cases hy : trim x with
            | nil => exact absurd hy hxt
            | cons a t => rfl
          simp [hxc, hxe]
        rw [hcmts, List.nil_append]
        rw [show List.filter (fun line => (trim line).isEmpty || !isCommentLine markers line)
          [s] = [s] from by simp [List.filter_cons, hcl]]
        simp [V1.stripLine, hfcs]
      rw [hone]
      rfl

end VCM.RT

namespace VCM.RT

open VCM

theorem specRecs_filter_block (markers : List Marker) (lines : List Line) :
    ∀ (segs : List Seg) (pos : Nat),
      (specRecs markers lines pos segs).filter (fun c => c.ctype = CKind.block) =
        blockSpecs markers lines pos segs := by
  intro segs
  induction segs with
  | nil => intro pos; rfl
  | cons seg rest ih =>
    intro pos
    cases seg with
    | blankSeg w => exact ih (pos + 1)
    | codeSeg s suf =>
      cases suf with
      | none => exact ih (pos + 1)
      | some suf =>
        show List.filter _ (_ :: specRecs markers lines (pos + 1) rest) = _
        rw [List.filter_cons]
        simp only [decide_eq_true_eq]
        rw [if_neg (by simp)]
        exact ih (pos + 1)
    | blockSeg cmts s =>
      show List.filter _ (_ :: specRecs markers lines (pos + cmts.length + 1) rest) = _
      rw [List.filter_cons]
      simp only [decide_eq_true_eq]
      rw [if_pos (by simp)]
      rw [ih (pos + cmts.length + 1)]
      rfl

theorem specRecs_filter_inline (markers : List Marker) (lines : List Line) :
    ∀ (segs : List Seg) (pos : Nat),
      (specRecs markers lines pos segs).filter (fun c => c.ctype = CKind.inline) =
        inlineSpecs markers lines pos segs := by
  intro segs
  induction segs with
  | nil => intro pos; rfl
  | cons seg rest ih =>
    intro pos
    cases seg with
    | blankSeg w => exact ih (pos + 1)
    | codeSeg s suf =>
      cases suf with
      | none => exact ih (pos + 1)
      | some suf =>
        show List.filter _ (_ :: specRecs markers lines (pos + 1) rest) = _
        rw [List.filter_cons]
        simp only [decide_eq_true_eq]
        rw [if_pos (by simp)]
        rw [ih (pos + 1)]
        rfl
    | blockSeg cmts s =>
      show List.filter _ (_ :: specRecs markers lines (pos + cmts.length + 1) rest) = _
      rw [List.filter_cons]
      simp only [decide_eq_true_eq]
      rw [if_neg (by simp)]
      exact ih (pos + cmts.length + 1)

theorem blockSpecs_key_ge (markers : List Marker) (lines : List Line) :
    ∀ (segs : List Seg) (pos : Nat), (∀ seg ∈ segs, WFSeg markers seg) →
      ∀ c ∈ blockSpecs markers lines pos segs, pos ≤ V1.blockKey c := by
  intro segs
  induction segs with
  | nil => intro pos _ c hc; simp [blockSpecs] at hc
  | cons seg rest ih =>
    intro pos hwf c hc
    have hrest := fun x hx => hwf x (List.mem_cons_of_mem seg hx)
    cases seg with
    | blankSeg w =>
      have := ih (pos + 1) hrest c hc
      omega
    | codeSeg s suf =>
      have := ih (pos + 1) hrest c hc
      omega
    | blockSeg cmts s =>
      obtain ⟨hcne, _⟩ := hwf (Seg.blockSeg cmts s) (List.mem_cons_self _ _)
      rcases List.mem_cons.mp hc with hEq | hmem
      · subst hEq
        cases cmts with
        | nil => exact absurd rfl hcne
        | cons c0 cr => simp [V1.blockKey, withPositions]
      · have := ih (pos + cmts.length + 1) hrest c hmem
        omega

theorem blockSpecs_sorted (markers : List Marker) (lines : List Line) :
    ∀ (segs : List Seg) (pos : Nat), (∀ seg ∈ segs, WFSeg markers seg) →
      List.Sorted (fun a b => V1.blockKey a ≤ V1.blockKey b)
        (blockSpecs markers lines pos segs) := by
  intro segs
  induction segs with
  | nil => intro pos _; exact List.sorted_nil
  | cons seg rest ih =>
    intro pos hwf
    have hrest := fun x hx => hwf x (List.mem_cons_of_mem seg hx)
    cases seg with
    | blankSeg w => exact ih (pos + 1) hrest
    | codeSeg s suf => exact ih (pos + 1) hrest
    | blockSeg cmts s =>
      obtain ⟨hcne, _⟩ := hwf (Seg.blockSeg cmts s) (List.mem_cons_self _ _)
      refine List.sorted_cons.mpr ⟨?_, ih (pos + cmts.length + 1) hrest⟩
      intro b hb
      have h1 := blockSpecs_key_ge markers lines rest (pos + cmts.length + 1) hrest b hb
      have h2 : V1.blockKey
          { ctype := CKind.block, anchor := trim s,
            prevHash := (findPrevCodeLine markers lines (pos + cmts.length)).map
              (fun j => hashLine (lines.getD j [])),
            nextHash := (findNextCodeLine markers lines (pos + cmts.length)).map
              (fun j => hashLine (lines.getD j [])),
            block := some (withPositions pos cmts) } = pos := by
        cases cmts with
        | nil => exact absurd rfl hcne
        | cons c0 cr => simp [V1.blockKey, withPositions]
      rw [h2]
      omega

theorem inlineSpecs_key_ge (markers : List Marker) (lines : List Line) :
    ∀ (segs : List Seg) (pos : Nat),
      ∀ c ∈ inlineSpecs markers lines pos segs, pos ≤ V1.inlineKey c := by
  intro segs
  induction segs with
  | nil => intro pos c hc; simp [inlineSpecs] at hc
  | cons seg rest ih =>
    intro pos c hc
    cases seg with
    | blankSeg w =>
      have := ih (pos + 1) c hc
      omega
    | codeSeg s suf =>
      cases suf with
      | none =>
        have := ih (pos + 1) c hc
        omega
      | some suf =>
        rcases List.mem_cons.mp hc with hEq | hmem
        · subst hEq
          simp [V1.inlineKey]
        · have := ih (pos + 1) c hmem
          omega
    | blockSeg cmts s =>
      have := ih (pos + cmts.length + 1) c hc
      omega

theorem inlineSpecs_sorted (markers : List Marker) (lines : List Line) :
    ∀ (segs : List Seg) (pos : Nat),
      List.Sorted (fun a b => V1.inlineKey a ≤ V1.inlineKey b)
        (inlineSpecs markers lines pos segs) := by
  intro segs
  induction segs with
  | nil => intro pos; exact List.sorted_nil
  | cons seg rest ih =>
    intro pos
    cases seg with
    | blankSeg w => exact ih (pos + 1)
    | codeSeg s suf =>
      cases suf with
      | none => exact ih (pos + 1)
      | some suf =>
        refine List.sorted_cons.mpr ⟨?_, ih (pos + 1)⟩
        intro b hb
        have h1 := inlineSpecs_key_ge markers lines rest (pos + 1) b hb
        have h2 : V1.inlineKey
            { ctype := CKind.inline, anchor := trim s,
              prevHash := (findPrevCodeLine markers lines pos).map
                (fun j => hashLine (lines.getD j [])),
              nextHash := (findNextCodeLine markers lines pos).map
                (fun j => hashLine (lines.getD j [])),
              originalLine := some pos, text := some suf } = pos := by
          simp [V1.inlineKey]
        rw [h2]
        omega
    | blockSeg cmts s => exact ih (pos + cmts.length + 1)

end VCM.RT

namespace VCM.RT

open VCM

theorem segD_anchor_lt : ∀ (segs : List Seg) (j : Nat) (a : Line),
    anchorOf (segD segs j) = some a → j < segs.length := by
  intro segs j a ha
  by_contra hge
  rw [show segD segs j = Seg.blankSeg [] from by
    unfold segD
    exact List.getD_eq_default segs (Seg.blankSeg []) (by omega)] at ha
  simp [anchorOf] at ha

theorem anchorOf_mem_codeTrims : ∀ (segs : List Seg) (j : Nat) (a : Line),
    anchorOf (segD segs j) = some a → a ∈ codeTrims segs := by
  intro segs
  induction segs with
  | nil =>
    intro j a ha
    have := segD_anchor_lt [] j a ha
    simp at this
  | cons seg rest ih =>
    intro j a ha
    cases j with
    | zero =>
      cases seg with
      | blankSeg w => simp [segD, anchorOf] at ha
      | codeSeg s suf =>
        have ha2 : a = trim s := by
          have := (by simpa [segD, anchorOf] using ha : trim s = a)
          exact this.symm
        subst ha2
        exact List.mem_cons_self _ _
      | blockSeg cmts s =>
        have ha2 : a = trim s := by
          have := (by simpa [segD, anchorOf] using ha : trim s = a)
          exact this.symm
        subst ha2
        exact List.mem_cons_self _ _
    | succ j2 =>
      have hmem := ih j2 a (by simpa [segD] using ha)
      cases seg with
      | blankSeg w => exact hmem
      | codeSeg s suf => exact List.mem_cons_of_mem _ hmem
      | blockSeg cmts s => exact List.mem_cons_of_mem _ hmem

theorem hashPairs_lookup : ∀ (segs : List Seg),
    (codeTrims segs).Pairwise (fun a b => a ≠ b) →
    ∀ (k j : Nat) (a : Line), anchorOf (segD segs j) = some a →
      mapLookup (hashPairs k segs) a = some [k + j] := by
  intro segs
  induction segs with
  | nil =>
    intro _ k j a ha
    have := segD_anchor_lt [] j a ha
    simp at this
  | cons seg rest ih =>
    intro hdist k j a ha
    cases seg with
    | blankSeg w =>
      cases j with
      | zero => simp [segD, anchorOf] at ha
      | succ j2 =>
        have hrec := ih hdist (k + 1) j2 a (by simpa [segD] using ha)
        rw [show hashPairs k (Seg.blankSeg w :: rest) = hashPairs (k + 1) rest from rfl, hrec,
          show k + 1 + j2 = k + (j2 + 1) from by omega]
    | codeSeg s suf =>
      obtain ⟨hne, hdist2⟩ := List.pairwise_cons.mp hdist
      cases j with
      | zero =>
        have ha2 : a = trim s := by
          have := (by simpa [segD, anchorOf] using ha : trim s = a)
          exact this.symm
        subst ha2
        show mapLookup ((trim s, [k]) :: hashPairs (k + 1) rest) (trim s) = some [k + 0]
        unfold mapLookup
        rw [if_pos rfl]
        rfl
      | succ j2 =>
        have ha3 : anchorOf (segD rest j2) = some a := by simpa [segD] using ha
        have hmem := anchorOf_mem_codeTrims rest j2 a ha3
        have hrec := ih hdist2 (k + 1) j2 a ha3
        show mapLookup ((trim s, [k]) :: hashPairs (k + 1) rest) a = some [k + (j2 + 1)]
        unfold mapLookup
        rw [if_neg (hne a hmem), hrec, show k + 1 + j2 = k + (j2 + 1) from by omega]
    | blockSeg cmts s =>
      obtain ⟨hne, hdist2⟩ := List.pairwise_cons.mp hdist
      cases j with
      | zero =>
        have ha2 : a = trim s := by
          have := (by simpa [segD, anchorOf] using ha : trim s = a)
          exact this.symm
        subst ha2
        show mapLookup ((trim s, [k]) :: hashPairs (k + 1) rest) (trim s) = some [k + 0]
        unfold mapLookup
        rw [if_pos rfl]
        rfl
      | succ j2 =>
        have ha3 : anchorOf (segD rest j2) = some a := by simpa [segD] using ha
        have hmem := anchorOf_mem_codeTrims rest j2 a ha3
        have hrec := ih hdist2 (k + 1) j2 a ha3
        show mapLookup ((trim s, [k]) :: hashPairs (k + 1) rest) a = some [k + (j2 + 1)]
        unfold mapLookup
        rw [if_neg (hne a hmem), hrec, show k + 1 + j2 = k + (j2 + 1) from by omega]

theorem buildHashIndices_render (markers : List Marker) :
    ∀ (segs : List Seg) (k : Nat) (m : List (Line × List Nat)),
      (∀ seg ∈ segs, WFSeg markers seg) →
      (codeTrims segs).Pairwise (fun a b => a ≠ b) →
      (∀ t ∈ codeTrims segs, mapLookup m t = none) →
      V1.buildHashIndices k (cleanRender segs) m = m ++ hashPairs k segs := by
  intro segs
  induction segs with
  | nil =>
    intro k m _ _ _
    rw [show cleanRender ([] : List Seg) = [] from rfl,
      show hashPairs k ([] : List Seg) = [] from rfl, List.append_nil]
    rfl
  | cons seg rest ih =>
    intro k m hwf hdist hfresh
    have hrest := fun x hx => hwf x (List.mem_cons_of_mem seg hx)
    cases seg with
    | blankSeg w =>
      obtain ⟨htrim, _⟩ := hwf (Seg.blankSeg w) (List.mem_cons_self _ _)
      show V1.buildHashIndices k (w :: cleanRender rest) m = m ++ hashPairs k (Seg.blankSeg w :: rest)
      simp only [V1.buildHashIndices]
      rw [if_pos (show (trim w).isEmpty = true from by rw [htrim]; rfl)]
      exact ih (k + 1) m hrest hdist hfresh
    | codeSeg s suf =>
      have htrim : trim s ≠ [] := by
        have hw := hwf (Seg.codeSeg s suf) (List.mem_cons_self _ _)
        cases suf with
        | none => exact hw.1
        | some suf => exact hw.1
      obtain ⟨hne, hdist2⟩ := List.pairwise_cons.mp hdist
      have hf : mapLookup m (hashLine s) = none :=
        hfresh (trim s) (List.mem_cons_self _ _)
      have hfresh2 : ∀ t ∈ codeTrims rest, mapLookup (m ++ [(trim s, [k])]) t = none := by
        intro t ht
        exact mapLookup_append_single_none m t (trim s) [k]
          (hfresh t (List.mem_cons_of_mem _ ht)) (hne t ht)
      show V1.buildHashIndices k (s :: cleanRender rest) m =
        m ++ ((trim s, [k]) :: hashPairs (k + 1) rest)
      simp only [V1.buildHashIndices]
      rw [if_neg (show ¬((trim s).isEmpty = true) from by
            cases hx : trim s with
            | nil => exact absurd hx htrim
            | cons a t => simp)]
      rw [bucketAdd_fresh m (hashLine s) k hf]
      rw [ih (k + 1) (m ++ [(hashLine s, [k])]) hrest hdist2 hfresh2]
      rw [List.append_assoc]
      rfl
    | blockSeg cmts s =>
      obtain ⟨hcne, hcall, htrim, _⟩ := hwf (Seg.blockSeg cmts s) (List.mem_cons_self _ _)
      obtain ⟨hne, hdist2⟩ := List.pairwise_cons.mp hdist
      have hf : mapLookup m (hashLine s) = none :=
        hfresh (trim s) (List.mem_cons_self _ _)
      have hfresh2 : ∀ t ∈ codeTrims rest, mapLookup (m ++ [(trim s, [k])]) t = none := by
        intro t ht
        exact mapLookup_append_single_none m t (trim s) [k]
          (hfresh t (List.mem_cons_of_mem _ ht)) (hne t ht)
      show V1.buildHashIndices k (s :: cleanRender rest) m =
        m ++ ((trim s, [k]) :: hashPairs (k + 1) rest)
      simp only [V1.buildHashIndices]
      rw [if_neg (show ¬((trim s).isEmpty = true) from by
            cases hx : trim s with
            | nil => exact absurd hx htrim
            | cons a t => simp)]
      rw [bucketAdd_fresh m (hashLine s) k hf]
      rw [ih (k + 1) (m ++ [(hashLine s, [k])]) hrest hdist2 hfresh2]
      rw [List.append_assoc]
      rfl

end VCM.RT

namespace VCM.RT

open VCM

theorem buildBlockMaps_cons_singleton (lines : List Line) (hmap : List (Line × List Nat))
    (b : Comment) (bs : List Comment) (acc : List (Nat × List Comment)) (used : List Nat)
    (i : Nat) (hb : mapLookup hmap b.anchor = some [i]) (hacc : mapLookup acc i = none) :
    V1.buildBlockMaps lines hmap (b :: bs) acc used =
      V1.buildBlockMaps lines hmap bs (acc ++ [(i, [b])]) (i :: used) := by
  simp only [V1.buildBlockMaps, hb]
  rw [if_neg (by simp)]
  rw [findBestMatch_singleton lines b i used]
  rw [bucketAdd_fresh acc i b hacc]

theorem buildInlineMap_cons_singleton (lines : List Line) (hmap : List (Line × List Nat))
    (used : List Nat) (b : Comment) (bs : List Comment) (imap : List (Nat × List Comment))
    (i : Nat) (hb : mapLookup hmap b.anchor = some [i]) (hacc : mapLookup imap i = none) :
    V1.buildInlineMap lines hmap used (b :: bs) imap =
      V1.buildInlineMap lines hmap used bs (imap ++ [(i, [b])]) := by
  simp only [V1.buildInlineMap, hb]
  rw [if_neg (by simp)]
  rw [findBestMatch_singleton lines b i used]
  rw [bucketAdd_fresh imap i b hacc]

theorem buildBlockMaps_run (markers : List Marker) (lines clines : List Line)
    (hmap : List (Line × List Nat)) :
    ∀ (segs : List Seg) (pos k : Nat) (acc : List (Nat × List Comment)) (used : List Nat),
      (∀ (j : Nat) (a : Line), anchorOf (segD segs j) = some a →
        mapLookup hmap a = some [k + j]) →
      (∀ j, k ≤ j → mapLookup acc j = none) →
      (V1.buildBlockMaps clines hmap (blockSpecs markers lines pos segs) acc used).1 =
        acc ++ bmapPairs markers lines pos k segs := by
  intro segs
  induction segs with
  | nil =>
    intro pos k acc used _ _
    rw [show blockSpecs markers lines pos ([] : List Seg) = [] from rfl,
      show bmapPairs markers lines pos k ([] : List Seg) = [] from rfl, List.append_nil]
    rfl
  | cons seg rest ih =>
    intro pos k acc used hanchor hacc
    have hshift : ∀ (j : Nat) (a : Line), anchorOf (segD rest j) = some a →
        mapLookup hmap a = some [(k + 1) + j] := by
      intro j a ha
      have := hanchor (j + 1) a (by simpa [segD] using ha)
      rw [show k + (j + 1) = k + 1 + j from by omega] at this
      exact this
    cases seg with
    | blankSeg w =>
      exact ih (pos + 1) (k + 1) acc used hshift (fun j hj => hacc j (by omega))
    | codeSeg s suf =>
      exact ih (pos + 1) (k + 1) acc used hshift (fun j hj => hacc j (by omega))
    | blockSeg cmts s =>
      have hl : mapLookup hmap (trim s) = some [k] := by
        have h0 := hanchor 0 (trim s) (by simp [segD, anchorOf])
        simpa using h0
      have hacc2 : ∀ j, k + 1 ≤ j →
          mapLookup (acc ++ [(k, [blockRecOf markers lines pos cmts s])]) j = none := by
        intro j hj
        exact mapLookup_append_single_none acc j k _ (hacc j (by omega)) (by omega)
      rw [show blockSpecs markers lines pos (Seg.blockSeg cmts s :: rest) =
        blockRecOf markers lines pos cmts s ::
          blockSpecs markers lines (pos + cmts.length + 1) rest from rfl]
      rw [buildBlockMaps_cons_singleton clines hmap (blockRecOf markers lines pos cmts s)
        (blockSpecs markers lines (pos + cmts.length + 1) rest) acc used k hl
        (hacc k (Nat.le_refl k))]
      rw [ih (pos + cmts.length + 1) (k + 1)
        (acc ++ [(k, [blockRecOf markers lines pos cmts s])]) (k :: used) hshift hacc2]
      rw [show bmapPairs markers lines pos k (Seg.blockSeg cmts s :: rest) =
        (k, [blockRecOf markers lines pos cmts s]) ::
          bmapPairs markers lines (pos + cmts.length + 1) (k + 1) rest from rfl]
      rw [List.append_assoc]
      rfl

theorem buildInlineMap_run (markers : List Marker) (lines clines : List Line)
    (hmap : List (Line × List Nat)) (used : List Nat) :
    ∀ (segs : List Seg) (pos k : Nat) (imap : List (Nat × List Comment)),
      (∀ (j : Nat) (a : Line), anchorOf (segD segs j) = some a →
        mapLookup hmap a = some [k + j]) →
      (∀ j, k ≤ j → mapLookup imap j = none) →
      V1.buildInlineMap clines hmap used (inlineSpecs markers lines pos segs) imap =
        imap ++ imapPairs markers lines pos k segs := by
  intro segs
  induction segs with
  | nil =>
    intro pos k imap _ _
    rw [show inlineSpecs markers lines pos ([] : List Seg) = [] from rfl,
      show imapPairs markers lines pos k ([] : List Seg) = [] from rfl, List.append_nil]
    rfl
  | cons seg rest ih =>
    intro pos k imap hanchor hacc
    have hshift : ∀ (j : Nat) (a : Line), anchorOf (segD rest j) = some a →
        mapLookup hmap a = some [(k + 1) + j] := by
      intro j a ha
      have := hanchor (j + 1) a (by simpa [segD] using ha)
      rw [show k + (j + 1) = k + 1 + j from by omega] at this
      exact this
    cases seg with
    | blankSeg w =>
      exact ih (pos + 1) (k + 1) imap hshift (fun j hj => hacc j (by omega))
    | codeSeg s suf =>
      cases suf with
      | none =>
        exact ih (pos + 1) (k + 1) imap hshift (fun j hj => hacc j (by omega))
      | some suf =>
        have hl : mapLookup hmap (trim s) = some [k] := by
          have h0 := hanchor 0 (trim s) (by simp [segD, anchorOf])
          simpa using h0
        have hacc2 : ∀ j, k + 1 ≤ j →
            mapLookup (imap ++ [(k, [inlineRecOf markers lines pos s suf])]) j = none := by
          intro j hj
          exact mapLookup_append_single_none imap j k _ (hacc j (by omega)) (by omega)
        rw [show inlineSpecs markers lines pos (Seg.codeSeg s (some suf) :: rest) =
          inlineRecOf markers lines pos s suf ::
            inlineSpecs markers lines (pos + 1) rest from rfl]
        rw [buildInlineMap_cons_singleton clines hmap used (inlineRecOf markers lines pos s suf)
          (inlineSpecs markers lines (pos + 1) rest) imap k hl (hacc k (Nat.le_refl k))]
        rw [ih (pos + 1) (k + 1)
          (imap ++ [(k, [inlineRecOf markers lines pos s suf])]) hshift hacc2]
        rw [show imapPairs markers lines pos k (Seg.codeSeg s (some suf) :: rest) =
          (k, [inlineRecOf markers lines pos s suf]) ::
            imapPairs markers lines (pos + 1) (k + 1) rest from rfl]
        rw [List.append_assoc]
        rfl
    | blockSeg cmts s =>
      exact ih (pos + cmts.length + 1) (k + 1) imap hshift (fun j hj => hacc j (by omega))

end VCM.RT

namespace VCM.RT

open VCM

theorem bmapPairs_lookup_lt (markers : List Marker) (lines : List Line) :
    ∀ (segs : List Seg) (pos k i : Nat), i < k →
      mapLookup (bmapPairs markers lines pos k segs) i = none := by
  intro segs
  induction segs with
  | nil => intro pos k i _; rfl
  | cons seg rest ih =>
    intro pos k i hi
    cases seg with
    | blankSeg w => exact ih (pos + 1) (k + 1) i (by omega)
    | codeSeg s suf => exact ih (pos + 1) (k + 1) i (by omega)
    | blockSeg cmts s =>
      show mapLookup ((k, [blockRecOf markers lines pos cmts s]) ::
        bmapPairs markers lines (pos + cmts.length + 1) (k + 1) rest) i = none
      unfold mapLookup
      rw [if_neg (by omega)]
      exact ih (pos + cmts.length + 1) (k + 1) i (by omega)

theorem imapPairs_lookup_lt (markers : List Marker) (lines : List Line) :
    ∀ (segs : List Seg) (pos k i : Nat), i < k →
      mapLookup (imapPairs markers lines pos k segs) i = none := by
  intro segs
  induction segs with
  | nil => intro pos k i _; rfl
  | cons seg rest ih =>
    intro pos k i hi
    cases seg with
    | blankSeg w => exact ih (pos + 1) (k + 1) i (by omega)
    | codeSeg s suf =>
      cases suf with
      | none => exact ih (pos + 1) (k + 1) i (by omega)
      | some suf =>
        show mapLookup ((k, [inlineRecOf markers lines pos s suf]) ::
          imapPairs markers lines (pos + 1) (k + 1) rest) i = none
        unfold mapLookup
        rw [if_neg (by omega)]
        exact ih (pos + 1) (k + 1) i (by omega)
    | blockSeg cmts s => exact ih (pos + cmts.length + 1) (k + 1) i (by omega)

theorem bmapPairs_emit (markers : List Marker) (lines : List Line) :
    ∀ (segs : List Seg) (pos k j : Nat), j < segs.length →
      ((mapLookup (bmapPairs markers lines pos k segs) (k + j)).getD []).flatMap
          V1.blockRenderLines = blockLinesOf (segD segs j) := by
  intro segs
  induction segs with
  | nil => intro pos k j hj; simp at hj
  | cons seg rest ih =>
    intro pos k j hj
    cases seg with
    | blankSeg w =>
      cases j with
      | zero =>
        rw [show k + 0 = k from rfl,
          show bmapPairs markers lines pos k (Seg.blankSeg w :: rest) =
            bmapPairs markers lines (pos + 1) (k + 1) rest from rfl,
          bmapPairs_lookup_lt markers lines rest (pos + 1) (k + 1) k (by omega)]
        rfl
      | succ j2 =>
        rw [show k + (j2 + 1) = (k + 1) + j2 from by omega]
        exact ih (pos + 1) (k + 1) j2 (by simp at hj; omega)
    | codeSeg s suf =>
      cases j with
      | zero =>
        rw [show k + 0 = k from rfl,
          show bmapPairs markers lines pos k (Seg.codeSeg s suf :: rest) =
            bmapPairs markers lines (pos + 1) (k + 1) rest from rfl,
          bmapPairs_lookup_lt markers lines rest (pos + 1) (k + 1) k (by omega)]
        rfl
      | succ j2 =>
        rw [show k + (j2 + 1) = (k + 1) + j2 from by omega]
        exact ih (pos + 1) (k + 1) j2 (by simp at hj; omega)
    | blockSeg cmts s =>
      cases j with
      | zero =>
        show ((mapLookup ((k, [blockRecOf markers lines pos cmts s]) ::
            bmapPairs markers lines (pos + cmts.length + 1) (k + 1) rest) (k + 0)).getD
          []).flatMap V1.blockRenderLines = blockLinesOf (segD (Seg.blockSeg cmts s :: rest) 0)
        unfold mapLookup
        rw [if_pos (show k = k + 0 from rfl)]
        show V1.blockRenderLines (blockRecOf markers lines pos cmts s) ++ [].flatMap
          V1.blockRenderLines = cmts
        rw [show ([] : List Comment).flatMap V1.blockRenderLines = [] from rfl, List.append_nil]
        show (cmBlk none ++ (some (withPositions pos cmts)).getD []).map BlockLine.text = cmts
        rw [show cmBlk none = [] from rfl, List.nil_append,
          show (some (withPositions pos cmts)).getD [] = withPositions pos cmts from rfl]
        exact withPositions_map_text pos cmts
      | succ j2 =>
        show ((mapLookup ((k, [blockRecOf markers lines pos cmts s]) ::
            bmapPairs markers lines (pos + cmts.length + 1) (k + 1) rest) (k + (j2 + 1))).getD
          []).flatMap V1.blockRenderLines = blockLinesOf (segD rest j2)
        unfold mapLookup
        rw [if_neg (by omega)]
        rw [show k + (j2 + 1) = (k + 1) + j2 from by omega]
        exact ih (pos + cmts.length + 1) (k + 1) j2 (by simp at hj; omega)

theorem imapPairs_emit (markers : List Marker) (lines : List Line) :
    ∀ (segs : List Seg) (pos k j : Nat), j < segs.length →
      imapEmit (mapLookup (imapPairs markers lines pos k segs) (k + j)) =
        sufOf (segD segs j) := by
  intro segs
  induction segs with
  | nil => intro pos k j hj; simp at hj
  | cons seg rest ih =>
    intro pos k j hj
    cases seg with
    | blankSeg w =>
      cases j with
      | zero =>
        rw [show k + 0 = k from rfl,
          show imapPairs markers lines pos k (Seg.blankSeg w :: rest) =
            imapPairs markers lines (pos + 1) (k + 1) rest from rfl,
          imapPairs_lookup_lt markers lines rest (pos + 1) (k + 1) k (by omega)]
        rfl
      | succ j2 =>
        rw [show k + (j2 + 1) = (k + 1) + j2 from by omega]
        exact ih (pos + 1) (k + 1) j2 (by simp at hj; omega)
    | codeSeg s suf =>
      cases suf with
      | none =>
        cases j with
        | zero =>
          rw [show k + 0 = k from rfl,
            show imapPairs markers lines pos k (Seg.codeSeg s none :: rest) =
              imapPairs markers lines (pos + 1) (k + 1) rest from rfl,
            imapPairs_lookup_lt markers lines rest (pos + 1) (k + 1) k (by omega)]
          rfl
        | succ j2 =>
          rw [show k + (j2 + 1) = (k + 1) + j2 from by omega]
          exact ih (pos + 1) (k + 1) j2 (by simp at hj; omega)
      | some suf =>
        cases j with
        | zero =>
          show imapEmit (mapLookup ((k, [inlineRecOf markers lines pos s suf]) ::
            imapPairs markers lines (pos + 1) (k + 1) rest) (k + 0)) =
              sufOf (segD (Seg.codeSeg s (some suf) :: rest) 0)
          unfold mapLookup
          rw [if_pos (show k = k + 0 from rfl)]
          show V1.inlineSuffix (inlineRecOf markers lines pos s suf) = suf
          show cmStr none ++ (some suf).getD [] = suf
          rw [show cmStr none = [] from rfl, List.nil_append]
          rfl
        | succ j2 =>
          show imapEmit (mapLookup ((k, [inlineRecOf markers lines pos s suf]) ::
            imapPairs markers lines (pos + 1) (k + 1) rest) (k + (j2 + 1))) =
              sufOf (segD rest j2)
          unfold mapLookup
          rw [if_neg (by omega)]
          rw [show k + (j2 + 1) = (k + 1) + j2 from by omega]
          exact ih (pos + 1) (k + 1) j2 (by simp at hj; omega)
    | blockSeg cmts s =>
      cases j with
      | zero =>
        rw [show k + 0 = k from rfl,
          show imapPairs markers lines pos k (Seg.blockSeg cmts s :: rest) =
            imapPairs markers lines (pos + cmts.length + 1) (k + 1) rest from rfl,
          imapPairs_lookup_lt markers lines rest (pos + cmts.length + 1) (k + 1) k (by omega)]
        rfl
      | succ j2 =>
        rw [show k + (j2 + 1) = (k + 1) + j2 from by omega]
        exact ih (pos + cmts.length + 1) (k + 1) j2 (by simp at hj; omega)

end VCM.RT

namespace VCM.RT

open VCM

theorem rebuildLoop_emit (bmap imap : List (Nat × List Comment)) :
    ∀ (segs : List Seg) (k : Nat),
      (∀ j, j < segs.length →
        ((mapLookup bmap (k + j)).getD []).flatMap V1.blockRenderLines =
          blockLinesOf (segD segs j)) →
      (∀ j, j < segs.length →
        imapEmit (mapLookup imap (k + j)) = sufOf (segD segs j)) →
      V1.rebuildLoop bmap imap k (cleanRender segs) = render segs := by
  intro segs
  induction segs with
  | nil => intro k _ _; rfl
  | cons seg rest ih =>
    intro k hb hi
    have hb0 := hb 0 (by simp)
    have hi0 := hi 0 (by simp)
    rw [show k + 0 = k from rfl] at hb0 hi0
    rw [show segD (seg :: rest) 0 = seg from rfl] at hb0 hi0
    have hbs : ∀ j, j < rest.length →
        ((mapLookup bmap ((k + 1) + j)).getD []).flatMap V1.blockRenderLines =
          blockLinesOf (segD rest j) := by
      intro j hj
      have := hb (j + 1) (by simp; omega)
      rw [show k + (j + 1) = (k + 1) + j from by omega] at this
      exact this
    have his : ∀ j, j < rest.length →
        imapEmit (mapLookup imap ((k + 1) + j)) = sufOf (segD rest j) := by
      intro j hj
      have := hi (j + 1) (by simp; omega)
      rw [show k + (j + 1) = (k + 1) + j from by omega] at this
      exact this
    show V1.rebuildLoop bmap imap k (cleanLineOf seg :: cleanRender rest) = render (seg :: rest)
    simp only [V1.rebuildLoop]
    rw [hb0]
    rw [ih (k + 1) hbs his]
    rw [show render (seg :: rest) = renderSeg seg ++ render rest from by simp [render],
      renderSeg_decomp, List.append_assoc]
    rw [show [cleanLineOf seg ++ sufOf seg] ++ render rest =
      (cleanLineOf seg ++ sufOf seg) :: render rest from rfl]
    congr 1
    rcases hm : mapLookup imap k with _ | bucket
    · simp only [hm]
      simp only [imapEmit, hm] at hi0
      rw [← hi0, List.append_nil]
    · cases bucket with
      | nil =>
        simp only [hm]
        simp only [imapEmit, hm] at hi0
        rw [← hi0, List.append_nil]
      | cons inl tl =>
        simp only [hm]
        simp only [imapEmit, hm] at hi0
        rw [hi0]

end VCM.RT

namespace VCM

/-- Counterexample for C1: two texts whose comments the Classifier
detects and whose anchors are unambiguous, yet the round trip is not the
identity.  In the first, a blank line separates the comment from the
code below it: extraction keeps buffering across the blank, anchors the
comment to `x = 1`, and injection emits the comment directly above the
anchor, moving the blank line above the comment.  In the second, the
block anchor line carries an inline comment: the block anchor hashes the
full raw line (inline suffix included), which never matches the stripped
line, so the block comment is dropped. -/
theorem c1_counterexample :
    V1.injectComments (V1.stripComments pyMarkers Fix.blankGapText)
        (V1.extractComments pyMarkers Fix.blankGapText) ≠ Fix.blankGapText
    ∧ V1.injectComments (V1.stripComments pyMarkers Fix.inlineAnchorText)
        (V1.extractComments pyMarkers Fix.inlineAnchorText) ≠ Fix.inlineAnchorText :=
  ⟨by decide, by decide⟩

/-- Claim C1 (amended): for every text given as a list of well-formed
segments — blank lines, code lines with an optional inline comment, and
comment blocks sitting immediately above their anchor code line (no
blank line in between, and no inline comment on such an anchor line) —
whose code lines have pairwise distinct trimmed contents (no ambiguous
anchor candidates) and contain no newline characters, injecting the
records extracted from the text into the stripped text reproduces the
original text byte for byte. -/
theorem c1_round_trip (markers : List Marker) (segs : List RT.Seg)
    (hwf : ∀ seg ∈ segs, RT.WFSeg markers seg)
    (hdist : (RT.codeTrims segs).Pairwise (fun a b => a ≠ b))
    (hne : segs ≠ [])
    (hnl : ∀ l ∈ RT.render segs, ∀ c ∈ l, c ≠ '\n') :
    V1.injectComments (V1.stripComments markers (joinNl (RT.render segs)))
      (V1.extractComments markers (joinNl (RT.render segs))) = joinNl (RT.render segs) := by
  have hL : splitNl (joinNl (RT.render segs)) = RT.render segs :=
    splitNl_joinNl (RT.render segs) (RT.render_ne_nil segs hne) hnl
  have hstrip : V1.stripComments markers (joinNl (RT.render segs)) =
      joinNl (RT.cleanRender segs) := by
    unfold V1.stripComments
    rw [hL, RT.strip_render markers segs hwf]
  have hcleannl : ∀ l ∈ RT.cleanRender segs, ∀ c ∈ l, c ≠ '\n' :=
    RT.cleanLine_chars segs hnl
  have hCL : splitNl (joinNl (RT.cleanRender segs)) = RT.cleanRender segs :=
    splitNl_joinNl (RT.cleanRender segs) (RT.cleanRender_ne_nil segs hne) hcleannl
  have hext : V1.extractComments markers (joinNl (RT.render segs)) =
      RT.specRecs markers (RT.render segs) 0 segs :=
    RT.extract_render markers segs hwf hne hnl
  rw [hstrip, hext]
  simp only [V1.injectComments]
  rw [hCL]
  rw [RT.buildHashIndices_render markers segs 0 [] hwf hdist (fun t _ => rfl)]
  rw [List.nil_append]
  rw [RT.specRecs_filter_block markers (RT.render segs) segs 0]
  rw [RT.specRecs_filter_inline markers (RT.render segs) segs 0]
  rw [show V1.sortBlocks (RT.blockSpecs markers (RT.render segs) 0 segs) =
    RT.blockSpecs markers (RT.render segs) 0 segs from
    List.Sorted.insertionSort_eq (RT.blockSpecs_sorted markers (RT.render segs) segs 0 hwf)]
  rw [show V1.sortInlines (RT.inlineSpecs markers (RT.render segs) 0 segs) =
    RT.inlineSpecs markers (RT.render segs) 0 segs from
    List.Sorted.insertionSort_eq (RT.inlineSpecs_sorted markers (RT.render segs) segs 0)]
  have hanch : ∀ (j : Nat) (a : Line), RT.anchorOf (RT.segD segs j) = some a →
      mapLookup (RT.hashPairs 0 segs) a = some [0 + j] :=
    fun j a ha => RT.hashPairs_lookup segs hdist 0 j a ha
  rw [RT.buildBlockMaps_run markers (RT.render segs) (RT.cleanRender segs)
    (RT.hashPairs 0 segs) segs 0 0 [] [] hanch (fun j _ => rfl)]
  rw [RT.buildInlineMap_run markers (RT.render segs) (RT.cleanRender segs)
    (RT.hashPairs 0 segs) _ segs 0 0 [] hanch (fun j _ => rfl)]
  rw [List.nil_append, List.nil_append]
  rw [RT.rebuildLoop_emit (RT.bmapPairs markers (RT.render segs) 0 0 segs)
    (RT.imapPairs markers (RT.render segs) 0 0 segs) segs 0
    (fun j hj => RT.bmapPairs_emit markers (RT.render segs) segs 0 0 j hj)
    (fun j hj => RT.imapPairs_emit markers (RT.render segs) segs 0 0 j hj)]

/-- Witness for C1: the amended round trip holds on a concrete
four-segment text. -/
theorem c1_witness :
    V1.injectComments
        (V1.stripComments pyMarkers (joinNl (RT.render Fix.c1Segs)))
        (V1.extractComments pyMarkers (joinNl (RT.render Fix.c1Segs))) =
      joinNl (RT.render Fix.c1Segs) :=
  c1_round_trip pyMarkers Fix.c1Segs (by decide) (by decide) (by simp [Fix.c1Segs])
    (by decide)

end VCM
